import Mathlib

/-!
Verification development for `nltk/sem/boxer.py`: the Boxer output parser
(`BoxerDrsParser`), the predicate-name builder, the batch demultiplexer
(`Boxer._parse_to_drs_dict` / `Boxer.batch_interpret_multisentence`) and the
compound-noun simplification pass (`Boxer._nn`).

Python strings are modelled as `String` (operated on through `List Char`
helpers so that everything reduces in the kernel), Python integers as `Int`
(Python 2 `/` on ints is floor division, `%` has the divisor's sign, matching
`Int.fdiv` / `Int.fmod` for the positive divisor 1000 used here), and raised
exceptions as `Except` errors.
-/

namespace Boxer

/-- `p.data.isPrefixOf s.data`: models Python `s.startswith(p)`. -/
def strStartsWith (s p : String) : Bool := p.data.isPrefixOf s.data

/-- Models Python `s.endswith(p)`. -/
def strEndsWith (s p : String) : Bool := p.data.isSuffixOf s.data

/-- The character set stripped by Python's default `str.strip()`. -/
def pyWhitespace (c : Char) : Bool :=
  c = ' ' || c = '\t' || c = '\n' || c = '\r' || c = '\x0b' || c = '\x0c'

/-- Models Python `s.strip()` (both ends, default whitespace set). -/
def pyStrip (l : List Char) : List Char :=
  ((l.dropWhile pyWhitespace).reverse.dropWhile pyWhitespace).reverse

/-- Position of the first occurrence of `c`, as in Python `s.index(c)`
(which raises `ValueError`, here `none`, when absent). -/
def charIndexOf : List Char → Char → Option Nat
  | [], _ => none
  | a :: rest, c =>
    if a = c then some 0
    else (charIndexOf rest c).map (· + 1)

/-- Digit-string value, base 10; `none` if empty or a non-digit occurs. -/
def parseNat10Go : List Char → Nat → Option Nat
  | [], acc => some acc
  | c :: r, acc =>
    if c.isDigit then parseNat10Go r (acc * 10 + (c.toNat - '0'.toNat)) else none

/-- Models Python `int(s)` on the token strings the parser feeds it:
an optional sign followed by at least one decimal digit. -/
def pyInt (s : String) : Option Int :=
  match s.data with
  | [] => none
  | '-' :: rest =>
    if rest = [] then none else (parseNat10Go rest 0).map (fun n => -(n : Int))
  | '+' :: rest =>
    if rest = [] then none else (parseNat10Go rest 0).map (fun n => (n : Int))
  | l => (parseNat10Go l 0).map (fun n => (n : Int))

/-- `BoxerDrsParser._make_Variable`: a name beginning with the external
tool's internal prefix `_G` is rewritten to `z` followed by the rest of the
name; any other name is kept unchanged. -/
def makeVariable (name : String) : String :=
  if strStartsWith name "_G" then "z" ++ String.mk (name.data.drop 2) else name

/-- The logical expression trees built by the parser, mirroring the NLTK DRT
classes the source constructs: `DRS`, `DrtNegatedExpression`,
`DrtLambdaExpression`, `DrtOrExpression`, `DrtImpExpression`,
`DrtEqualityExpression`, `ConcatenationDRS` (both `merge` and `smerge`),
`DrtApplicationExpression` and `DrtVariableExpression`.  Variables are
identified by their names, as in NLTK's `Variable`. -/
inductive Expr where
  | var (name : String)
  | drs (refs : List String) (conds : List Expr)
  | neg (t : Expr)
  | lam (v : String) (t : Expr)
  | or (a b : Expr)
  | imp (a b : Expr)
  | eq (a b : Expr)
  | concat (a b : Expr)
  | app (f a : Expr)

/-- Parse-time failures.  The source raises the logic library's
`UnexpectedTokenException`; following the specification's error taxonomy the
unknown-condition case (where `handle_condition` returns `None` and
`parse_condition` raises with just the offending token) is kept distinct
from the punctuation-mismatch case raised by `assertToken`. -/
inductive ParseError where
  | expectedMoreTokens
  | unexpectedToken (expected actual : String)
  | unexpectedCondition (tok : String)
  | unknownExpressionHead (tok : String)
  | trailingTokens (tok : String)
  | valueError (tok : String)
  | tokenizationError
  | outOfFuel

/-- The token-splitting symbols of `BoxerDrsParser.get_all_symbols`. -/
def isPunct (c : Char) : Bool :=
  c = '(' || c = ')' || c = '[' || c = ']' || c = ',' || c = ':'

/-- Consume the body of a quoted atom after the opening quote; the
quote characters are excluded from the token and a backslash escapes the
following character.  `none` models an unterminated quote. -/
def quotedTok : List Char → List Char → Option (String × List Char)
  | [], _ => none
  | '\\' :: c :: rest, acc => quotedTok rest (c :: acc)
  | '\\' :: [], _ => none
  | '\'' :: rest, acc => some (String.mk acc.reverse, rest)
  | c :: rest, acc => quotedTok rest (c :: acc)

/-- Modelled from the spec: the logic library's tokenizer (`LogicParser.process`,
outside this repository) as described in the specification: punctuation
characters are single tokens, `'…'` quotes an atom with `\` as escape,
whitespace separates tokens, and bare words are maximal runs of the
remaining characters.  `fuel` only bounds the recursion; each step consumes
at least one character so `length + 1` always suffices. -/
def tokenizeGo : Nat → List Char → Except ParseError (List String)
  | 0, _ => .error .outOfFuel
  | _ + 1, [] => .ok []
  | fuel + 1, c :: rest =>
    if pyWhitespace c then tokenizeGo fuel rest
    else if isPunct c then (tokenizeGo fuel rest).map (String.mk [c] :: ·)
    else if c = '\'' then
      match quotedTok rest [] with
      | none => .error .tokenizationError
      | some (t, r) => (tokenizeGo fuel r).map (t :: ·)
    else
      let keep := fun ch => !(pyWhitespace ch || isPunct ch || ch = '\'')
      (tokenizeGo fuel ((c :: rest).dropWhile keep)).map
        (String.mk ((c :: rest).takeWhile keep) :: ·)

/-- Tokenize a term string. -/
def tokenize (s : String) : Except ParseError (List String) :=
  tokenizeGo (s.data.length + 1) s.data

/-- `self.token()`: pop the next token, raising when the stream is empty. -/
def nextTok : List String → Except ParseError (String × List String)
  | [] => .error .expectedMoreTokens
  | t :: rest => .ok (t, rest)

/-- `self.token(0)`: peek at the next token without consuming it. -/
def peekTok : List String → Except ParseError String
  | [] => .error .expectedMoreTokens
  | t :: _ => .ok t

/-- `self.assertToken(self.token(), expected)`: consume one token and fail
with the expected/actual pair when it is not the given punctuation. -/
def expectTok (expected : String) (toks : List String) :
    Except ParseError (List String) := do
  let (t, r) ← nextTok toks
  if t = expected then .ok r else .error (.unexpectedToken expected t)

/-- The index decoding inside `_parse_index_list`:
`sent_index = (base_index / 1000) - 1`, `word_index = (base_index % 1000) - 1`
with Python 2 floor division. -/
def decodeIndex (n : Int) : Int × Int :=
  (Int.fdiv n 1000 - 1, Int.fmod n 1000 - 1)

/-- Modelled from the spec: the external tool's index encoding
`1000*(sentence+1) + (word+1)` (wire protocol, not code of this file). -/
def encodeIndex (s w : Int) : Int := 1000 * (s + 1) + (w + 1)

mutual

/-- The loop of `_parse_index_list`: read integers until the peeked token is
`]`, decoding each and swallowing a separating comma after each integer.
The closing `]` is left unconsumed.  The loop body is split in two so the
recursion is structural: `indexListLoop` handles the peek at the top of the
`while`, `indexListAfter` the optional comma swallow (inlining the following
iteration's peek when no comma is present). -/
def indexListLoop : List String → Except ParseError (List (Int × Int) × List String)
  | [] => .error .expectedMoreTokens
  | t :: rest =>
    if t = "]" then .ok ([], t :: rest)
    else
      match pyInt t with
      | none => .error (.valueError t)
      | some n =>
        (indexListAfter rest).map (fun (ps, r) => (decodeIndex n :: ps, r))

/-- The optional comma swallow after each integer of `_parse_index_list`,
followed by the next iteration of the loop. -/
def indexListAfter : List String → Except ParseError (List (Int × Int) × List String)
  | [] => .error .expectedMoreTokens
  | "," :: rest => indexListLoop rest
  | t :: rest =>
    if t = "]" then .ok ([], t :: rest)
    else
      match pyInt t with
      | none => .error (.valueError t)
      | some n =>
        (indexListAfter rest).map (fun (ps, r) => (decodeIndex n :: ps, r))

end

/-- `BoxerDrsParser._parse_index_list`: `[n1,n2,...]:` with each index decoded
to a (sentence, word) pair. -/
def parseIndexList (toks : List String) :
    Except ParseError (List (Int × Int) × List String) := do
  let r ← expectTok "[" toks
  let (indices, r) ← indexListLoop r
  let (_, r) ← nextTok r
  let r ← expectTok ":" r
  .ok (indices, r)

/-- The parser configuration: `BoxerDrsParser.__init__(occur_index, discourse_id)`. -/
structure Cfg where
  occurIndex : Bool
  discourseId : Option String

/-- `BoxerDrsParser._format_pred_name`: keep only ASCII letters, digits and
underscores. -/
def formatPredName (name : String) : String :=
  String.mk (name.data.filter fun c =>
    ('A' ≤ c && c ≤ 'Z') || ('a' ≤ c && c ≤ 'z') || ('0' ≤ c && c ≤ '9') || c = '_')

/-- Python truthiness of the `discourse_id` attribute: `None` and the empty
string are falsy. -/
def discTruthy : Option String → Bool
  | none => false
  | some s => s ≠ ""

/-- `BoxerDrsParser._make_pred`.  The discourse-id segment needs a truthy
discourse id and a non-empty index list; the position marker needs
`occur_index` and a non-empty index list and uses only `indices[0]`; with no
indices at all the part of speech is forced to `r`. -/
def makePred (cfg : Cfg) (pos name : String) (indices : List (Int × Int))
    (arity : Nat) : String :=
  let discIdStr := if discTruthy cfg.discourseId && !indices.isEmpty
    then cfg.discourseId.getD "" ++ "_" else ""
  let indexStr := match indices with
    | (s, w) :: _ =>
      if cfg.occurIndex then "s" ++ toString s ++ "_w" ++ toString w ++ "_" else ""
    | [] => ""
  let pos := if indices.isEmpty then "r" else pos
  pos ++ "_" ++ name ++ "_" ++ discIdStr ++ indexStr ++ toString arity

/-- A string argument of `_make_atom`: converted through `_make_Variable`
and wrapped as a variable expression. -/
def strArg (s : String) : Expr := .var (makeVariable s)

/-- `BoxerDrsParser._make_atom`: the predicate name goes through
`_make_Variable`, and the atom is the curried application of the resulting
variable expression to the arguments in order. -/
def mkAtom (pred : String) (args : List Expr) : Expr :=
  args.foldl .app (.var (makeVariable pred))

/-- The type of the recursive entry point `parse_Expression` that the
condition handlers call back into; it is passed explicitly so each handler
stays a plain definition. -/
abbrev RecP := List String → Except ParseError (Expr × List String)

/-- `BoxerDrsParser._handle_pred`: `pred(arg, name, pos, sense)` becomes a
unary atom whose predicate is built by `_make_pred` with arity 1. -/
def handlePred (cfg : Cfg) (indices : List (Int × Int)) (toks : List String) :
    Except ParseError (Expr × List String) := do
  let r ← expectTok "(" toks
  let (arg, r) ← nextTok r
  let r ← expectTok "," r
  let (nm, r) ← nextTok r
  let fName := formatPredName nm
  let r ← expectTok "," r
  let (fPos, r) ← nextTok r
  let r ← expectTok "," r
  let (_fSense, r) ← nextTok r
  let r ← expectTok ")" r
  .ok (mkAtom (makePred cfg fPos fName indices 1) [strArg arg], r)

/-- `BoxerDrsParser._handle_named`: `named(arg, name, category, sense)`
becomes a unary atom with the fixed-form predicate `n_<name>_1`. -/
def handleNamed (toks : List String) : Except ParseError (Expr × List String) := do
  let r ← expectTok "(" toks
  let (arg, r) ← nextTok r
  let r ← expectTok "," r
  let (nm, r) ← nextTok r
  let fName := formatPredName nm
  let r ← expectTok "," r
  let (_fPos, r) ← nextTok r
  let r ← expectTok "," r
  let (_fSense, r) ← nextTok r
  let r ← expectTok ")" r
  .ok (mkAtom ("n_" ++ fName ++ "_" ++ toString (1 : Nat)) [strArg arg], r)

/-- `BoxerDrsParser._handle_rel`: `rel(arg1, arg2, name, sense)` becomes a
binary atom with the fixed-form predicate `r_<name>_2`. -/
def handleRel (toks : List String) : Except ParseError (Expr × List String) := do
  let r ← expectTok "(" toks
  let (arg1, r) ← nextTok r
  let r ← expectTok "," r
  let (arg2, r) ← nextTok r
  let r ← expectTok "," r
  let (nm, r) ← nextTok r
  let fName := formatPredName nm
  let r ← expectTok "," r
  let (_fSense, r) ← nextTok r
  let r ← expectTok ")" r
  .ok (mkAtom ("r_" ++ fName ++ "_" ++ toString (2 : Nat)) [strArg arg1, strArg arg2], r)

/-- `BoxerDrsParser._handle_card`: `card(arg, value, rel)` becomes a ternary
atom with the fixed predicate `r_card_3`. -/
def handleCard (toks : List String) : Except ParseError (Expr × List String) := do
  let r ← expectTok "(" toks
  let (arg, r) ← nextTok r
  let r ← expectTok "," r
  let (value, r) ← nextTok r
  let r ← expectTok "," r
  let (rel, r) ← nextTok r
  let r ← expectTok ")" r
  .ok (mkAtom "r_card_3" [strArg arg, strArg value, strArg rel], r)

/-- Python `year.replace(':', '_')` in `_handle_date`. -/
def yearClean (year : String) : String :=
  String.mk (year.data.map fun c => if c = ':' then '_' else c)

/-- `BoxerDrsParser._handle_date`: four index-annotated slots; polarity is
kept only for `+`/`-`, the other slots only when not the `XXXX`/`XX`
placeholder. -/
def handleDate (arg : String) (toks : List String) :
    Except ParseError (List Expr × List String) := do
  let (_, r) ← parseIndexList toks
  let (pol, r) ← nextTok r
  let conds1 : List Expr :=
    if pol = "+" then [mkAtom "r_pol_2" [strArg arg, strArg "pos"]]
    else if pol = "-" then [mkAtom "r_pol_2" [strArg arg, strArg "neg"]]
    else []
  let r ← expectTok "," r
  let (_, r) ← parseIndexList r
  let (year, r) ← nextTok r
  let conds2 : List Expr :=
    if year ≠ "XXXX" then [mkAtom "r_year_2" [strArg arg, strArg (yearClean year)]]
    else []
  let r ← expectTok "," r
  let (_, r) ← parseIndexList r
  let (month, r) ← nextTok r
  let conds3 : List Expr :=
    if month ≠ "XX" then [mkAtom "r_month_2" [strArg arg, strArg month]] else []
  let r ← expectTok "," r
  let (_, r) ← parseIndexList r
  let (day, r) ← nextTok r
  let conds4 : List Expr :=
    if day ≠ "XX" then [mkAtom "r_day_2" [strArg arg, strArg day]] else []
  .ok (conds1 ++ conds2 ++ conds3 ++ conds4, r)

/-- `BoxerDrsParser._handle_time`: three index-annotated slots, each kept
only when not the `XX` placeholder. -/
def handleTime (arg : String) (toks : List String) :
    Except ParseError (List Expr × List String) := do
  let (_, r) ← parseIndexList toks
  let (hour, r) ← nextTok r
  let conds1 : List Expr :=
    if hour ≠ "XX" then [mkAtom "r_hour_2" [strArg arg, strArg hour]] else []
  let r ← expectTok "," r
  let (_, r) ← parseIndexList r
  let (mn, r) ← nextTok r
  let conds2 : List Expr :=
    if mn ≠ "XX" then [mkAtom "r_min_2" [strArg arg, strArg mn]] else []
  let r ← expectTok "," r
  let (_, r) ← parseIndexList r
  let (sec, r) ← nextTok r
  let conds3 : List Expr :=
    if sec ≠ "XX" then [mkAtom "r_sec_2" [strArg arg, strArg sec]] else []
  .ok (conds1 ++ conds2 ++ conds3, r)

/-- `BoxerDrsParser._handle_time_expression`: dispatch on `date`/`time`; an
unknown functor returns `none` (the source's `return None`) without reading
the closing parenthesis; otherwise the marker atom `r_<functor>_1` is
prepended to the slot conditions. -/
def handleTimeExpression (arg : String) (toks : List String) :
    Except ParseError (Option (List Expr) × List String) := do
  let (tok, r) ← nextTok toks
  let r ← expectTok "(" r
  if tok = "date" then do
    let (conds, r) ← handleDate arg r
    let r ← expectTok ")" r
    .ok (some (mkAtom ("r_" ++ tok ++ "_" ++ toString (1 : Nat)) [strArg arg] :: conds), r)
  else if tok = "time" then do
    let (conds, r) ← handleTime arg r
    let r ← expectTok ")" r
    .ok (some (mkAtom ("r_" ++ tok ++ "_" ++ toString (1 : Nat)) [strArg arg] :: conds), r)
  else .ok (none, r)

/-- `BoxerDrsParser._handle_timex`: `timex(arg, date(...)|time(...))`,
returning the spliced condition list (or `none` for an unknown functor,
which `parse_condition` then rejects). -/
def handleTimex (toks : List String) :
    Except ParseError (Option (List Expr) × List String) := do
  let r ← expectTok "(" toks
  let (arg, r) ← nextTok r
  let r ← expectTok "," r
  let (newConds, r) ← handleTimeExpression arg r
  let r ← expectTok ")" r
  .ok (newConds, r)

/-- `BoxerDrsParser._handle_eq`: `eq(v1, v2)` becomes an equality of the two
variable expressions. -/
def handleEq (toks : List String) : Except ParseError (Expr × List String) := do
  let r ← expectTok "(" toks
  let (v1, r) ← nextTok r
  let r ← expectTok "," r
  let (v2, r) ← nextTok r
  let r ← expectTok ")" r
  .ok (.eq (.var (makeVariable v1)) (.var (makeVariable v2)), r)

/-- `BoxerDrsParser._handle_prop`: `prop(arg, term)` returns the inner term
only; the proposition variable is discarded. -/
def handleProp (recP : RecP) (toks : List String) :
    Except ParseError (Expr × List String) := do
  let r ← expectTok "(" toks
  let (_arg, r) ← nextTok r
  let r ← expectTok "," r
  let (d, r) ← recP r
  let r ← expectTok ")" r
  .ok (d, r)

/-- The `not` branch of `handle_condition`: `not(term)`. -/
def handleNot (recP : RecP) (toks : List String) :
    Except ParseError (Expr × List String) := do
  let r ← expectTok "(" toks
  let (e, r) ← recP r
  let r ← expectTok ")" r
  .ok (.neg e, r)

/-- `BoxerDrsParser._make_binary_expression`: `(term, term)` combined with
the given constructor. -/
def makeBinaryExpression (recP : RecP) (ctor : Expr → Expr → Expr)
    (toks : List String) : Except ParseError (Expr × List String) := do
  let r ← expectTok "(" toks
  let (e1, r) ← recP r
  let r ← expectTok "," r
  let (e2, r) ← recP r
  let r ← expectTok ")" r
  .ok (ctor e1 e2, r)

/-- The `Category:Answer` loop of `_handle_whq`: until the peeked token is
`]`, read a category token, expect `:`, and collect answer-type names —
`des` keeps the answer token, `num` adds `number` and then `count` for
`cou` (the type token otherwise), and any other category keeps the answer
token.  No comma is swallowed between pairs, exactly as in the source. -/
def whqAnsLoop : List String → Except ParseError (List String × List String)
  | [] => .error .expectedMoreTokens
  | t :: rest =>
    if t = "]" then .ok ([], t :: rest)
    else
      match rest with
      | [] => .error .expectedMoreTokens
      | c :: rest2 =>
        if c = ":" then
          if t = "des" then
            match rest2 with
            | [] => .error .expectedMoreTokens
            | a :: rest3 =>
              (whqAnsLoop rest3).map (fun (ts, r) => (a :: ts, r))
          else if t = "num" then
            match rest2 with
            | [] => .error .expectedMoreTokens
            | ty :: rest3 =>
              let a := if ty = "cou" then "count" else ty
              (whqAnsLoop rest3).map (fun (ts, r) => ("number" :: a :: ts, r))
          else
            match rest2 with
            | [] => .error .expectedMoreTokens
            | a :: rest3 =>
              (whqAnsLoop rest3).map (fun (ts, r) => (a :: ts, r))
        else .error (.unexpectedToken ":" c)

/-- `BoxerDrsParser._handle_whq`: collect the answer types, parse the
restriction, the answer variable and the body, wrap each answer type as a
unary atom (predicate built by `_make_pred` with part of speech `n`, an
empty index list and arity 1) applied to the answer variable inside a fresh
zero-referent DRS, and concatenate. -/
def handleWhq (cfg : Cfg) (recP : RecP) (toks : List String) :
    Except ParseError (Expr × List String) := do
  let r ← expectTok "(" toks
  let r ← expectTok "[" r
  let (ansTypes, r) ← whqAnsLoop r
  let (_, r) ← nextTok r
  let r ← expectTok "," r
  let (d1, r) ← recP r
  let r ← expectTok "," r
  let (refTok, r) ← nextTok r
  let refE := Expr.var (makeVariable refTok)
  let r ← expectTok "," r
  let (d2, r) ← recP r
  let r ← expectTok ")" r
  let d3 := Expr.drs [] (ansTypes.map fun fName => mkAtom (makePred cfg "n" fName [] 1) [refE])
  .ok (.concat d3 (.concat d1 d2), r)

/-- `BoxerDrsParser.handle_condition`: dispatch on the condition keyword;
an unrecognized keyword yields `none` (the source falls through and returns
`None`). -/
def handleCondition (cfg : Cfg) (recP : RecP) (tok : String)
    (indices : List (Int × Int)) (toks : List String) :
    Except ParseError (Option (List Expr × List String)) :=
  if tok = "not" then (handleNot recP toks).map (fun (e, r) => some ([e], r))
  else if tok = "or" then
    (makeBinaryExpression recP .or toks).map (fun (e, r) => some ([e], r))
  else if tok = "imp" then
    (makeBinaryExpression recP .imp toks).map (fun (e, r) => some ([e], r))
  else if tok = "eq" then (handleEq toks).map (fun (e, r) => some ([e], r))
  else if tok = "prop" then (handleProp recP toks).map (fun (e, r) => some ([e], r))
  else if tok = "pred" then
    (handlePred cfg indices toks).map (fun (e, r) => some ([e], r))
  else if tok = "named" then (handleNamed toks).map (fun (e, r) => some ([e], r))
  else if tok = "rel" then (handleRel toks).map (fun (e, r) => some ([e], r))
  else if tok = "timex" then
    (handleTimex toks).map (fun (oc, r) => oc.map (fun cs => (cs, r)))
  else if tok = "card" then (handleCard toks).map (fun (e, r) => some ([e], r))
  else if tok = "whq" then (handleWhq cfg recP toks).map (fun (e, r) => some ([e], r))
  else .ok none

/-- `BoxerDrsParser.parse_condition`: read the condition keyword, dispatch,
and fail naming the offending token when the keyword is unrecognized (the
specification's `UnexpectedConditionError`). -/
def parseCondition (cfg : Cfg) (recP : RecP) (indices : List (Int × Int))
    (toks : List String) : Except ParseError (List Expr × List String) := do
  let (tok, r) ← nextTok toks
  match ← handleCondition cfg recP tok indices r with
  | some res => .ok res
  | none => .error (.unexpectedCondition tok)

/-- The referent loop of `parse_drs`: until the peeked token is `]`, consume
an index annotation, read a referent name through `_make_Variable`, and
swallow a separating comma.  `fuel` only bounds the recursion. -/
def drsRefsLoop : Nat → List String → Except ParseError (List String × List String)
  | 0, _ => .error .outOfFuel
  | fuel + 1, toks => do
    let pk ← peekTok toks
    if pk = "]" then .ok ([], toks)
    else do
      let (_indices, r) ← parseIndexList toks
      let (v, r) ← nextTok r
      let pk2 ← peekTok r
      let r := if pk2 = "," then r.drop 1 else r
      let (vs, r) ← drsRefsLoop fuel r
      .ok (makeVariable v :: vs, r)

/-- The condition loop of `parse_drs`: until the peeked token is `]`,
consume an index annotation, parse one condition (extending the condition
list with all expressions it yields) and swallow a separating comma. -/
def drsCondsLoop (cfg : Cfg) (recP : RecP) :
    Nat → List String → Except ParseError (List Expr × List String)
  | 0, _ => .error .outOfFuel
  | fuel + 1, toks => do
    let pk ← peekTok toks
    if pk = "]" then .ok ([], toks)
    else do
      let (indices, r) ← parseIndexList toks
      let (cs, r) ← parseCondition cfg recP indices r
      let pk2 ← peekTok r
      let r := if pk2 = "," then r.drop 1 else r
      let (rest, r) ← drsCondsLoop cfg recP fuel r
      .ok (cs ++ rest, r)

/-- `BoxerDrsParser.parse_drs`: `drs([refs], [conds])`. -/
def parseDrs (cfg : Cfg) (recP : RecP) (fuel : Nat) (toks : List String) :
    Except ParseError (Expr × List String) := do
  let r ← expectTok "(" toks
  let r ← expectTok "[" r
  let (refs, r) ← drsRefsLoop fuel r
  let (_, r) ← nextTok r
  let r ← expectTok "," r
  let r ← expectTok "[" r
  let (conds, r) ← drsCondsLoop cfg recP fuel r
  let (_, r) ← nextTok r
  let r ← expectTok ")" r
  .ok (.drs refs conds, r)

/-- One step of the expression entry point: `handle` / `handle_drs`
recognizes `drs`, `merge` and `smerge` (both mapped to concatenation);
anything else is rejected (the library's `parse_Expression` raises when the
handler yields nothing). -/
def parseExpressionBody (cfg : Cfg) (recP : RecP) (fuel : Nat)
    (toks : List String) : Except ParseError (Expr × List String) := do
  let (tok, r) ← nextTok toks
  if tok = "drs" then parseDrs cfg recP fuel r
  else if tok = "merge" then makeBinaryExpression recP .concat r
  else if tok = "smerge" then makeBinaryExpression recP .concat r
  else .error (.unknownExpressionHead tok)

/-- The fueled expression parser: each recursion into a sub-expression goes
through one fuel level.  Any fuel of at least the token count succeeds on
well-formed input, since every level consumes at least one token. -/
def parseExpression (cfg : Cfg) : Nat → List String → Except ParseError (Expr × List String)
  | 0, _ => .error .outOfFuel
  | fuel + 1, toks => parseExpressionBody cfg (parseExpression cfg fuel) fuel toks

/-- `BoxerDrsParser.parse`: tokenize, parse one expression, and reject
trailing tokens (as the library's `parse` does). -/
def parse (cfg : Cfg) (s : String) : Except ParseError Expr := do
  let toks ← tokenize s
  let (e, r) ← parseExpression cfg (toks.length + 1) toks
  match r with
  | [] => .ok e
  | t :: _ => .error (.trailingTokens t)

/-- The head of a curried application chain (what NLTK's `uncurry` returns
as the function). -/
def appHead : Expr → Expr
  | .app f _ => appHead f
  | e => e

/-- The argument list of a curried application chain, in application order
(what NLTK's `uncurry` returns as the arguments). -/
def appArgs : Expr → List Expr
  | .app f a => appArgs f ++ [a]
  | _ => []

/-- The number of arguments of a curried application chain. -/
def appArgCount : Expr → Nat
  | .app f _ => appArgCount f + 1
  | _ => 0

/-- Python's `func.variable.name` on the uncurried head: defined for
variable and lambda expressions (both carry a `variable` attribute); any
other head raises `AttributeError`. -/
def headVariableName : Expr → Option String
  | .var n => some n
  | .lam v _ => some v
  | _ => none

/-- The exceptions `Boxer._nn` can raise: an `AttributeError` when an
application head has no `variable` attribute, and an `AssertionError` when
an `r_nn_2` chain does not have exactly two arguments. -/
inductive SimplifyError where
  | attributeError
  | assertionError

mutual

/-- `Boxer._nn`: replace every application chain headed by the variable
`r_nn_2` (asserting it has exactly two arguments, which are taken verbatim)
by an equality, and recurse into every other structural child.  The
source's `else` branch folds `_nn` over the uncurried head and arguments
and rebuilds the chain with repeated application; since the sub-chain `f`
of `app f a` has the same (non-`r_nn_2`) head, that fold is exactly
`app (nn f) (nn a)`, which is the form used here. -/
def nn : Expr → Except SimplifyError Expr
  | .var n => .ok (.var n)
  | .drs refs conds => (nnList conds).map (.drs refs ·)
  | .neg t => (nn t).map .neg
  | .lam v t => (nn t).map (.lam v ·)
  | .or a b => do .ok (.or (← nn a) (← nn b))
  | .imp a b => do .ok (.imp (← nn a) (← nn b))
  | .eq a b => do .ok (.eq (← nn a) (← nn b))
  | .concat a b => do .ok (.concat (← nn a) (← nn b))
  | .app f a =>
    match headVariableName (appHead (.app f a)) with
    | none => .error .attributeError
    | some n =>
      if n = "r_nn_2" then
        match appArgs (.app f a) with
        | [x, y] => .ok (.eq x y)
        | _ => .error .assertionError
      else do .ok (.app (← nn f) (← nn a))

/-- `map(self._nn, drs.conds)`. -/
def nnList : List Expr → Except SimplifyError (List Expr)
  | [] => .ok []
  | c :: cs => do .ok ((← nn c) :: (← nnList cs))

end

/-- Modelled from the spec: the logic library's `simplify` (beta-reduction
and merge normalization, outside this repository) is a meaning-preserving
structural rewrite invoked once per parsed term; none of the claims settled
here depend on which normal form it produces, so it is modelled as the
identity rewrite. -/
def simplifyLib (e : Expr) : Expr := e

/-- Failures of `Boxer._parse_to_drs_dict`: Python `ValueError` from
`str.index`, `IndexError` from out-of-range subscripts, `AssertionError`
from the two layout asserts (the specification's
`MalformedBatchLayoutError`), and propagated parser/simplifier errors. -/
inductive DemuxError where
  | valueError
  | indexError
  | assertionError
  | parseError (e : ParseError)
  | simplifyError (e : SimplifyError)
  | outOfFuel

/-- The discourse result map, with Python-dict lookup and overwrite
semantics. -/
abbrev DrsDict := List (String × Expr)

/-- `drs_dict.get(k, None)`. -/
def dictGet (d : DrsDict) (k : String) : Option Expr :=
  (d.find? fun p => p.1 == k).map (·.2)

/-- `drs_dict[k] = v`: overwrite any existing binding. -/
def dictInsert (d : DrsDict) (k : String) (v : Expr) : DrsDict :=
  (d.filter fun p => p.1 != k) ++ [(k, v)]

/-- Python `s.split('\n')`. -/
def splitLinesGo : List Char → List Char → List String
  | [], acc => [String.mk acc.reverse]
  | '\n' :: rest, acc => String.mk acc.reverse :: splitLinesGo rest []
  | c :: rest, acc => splitLinesGo rest (c :: acc)

/-- Split a raw output buffer into lines, as `boxer_out.split('\n')`. -/
def splitLines (s : String) : List String := splitLinesGo s.data []

/-- The id-line dissection at the top of the `id(` branch of
`_parse_to_drs_dict`: `comma_idx = line.index(',')`,
`discourse_id = line[3:comma_idx]` (with the surrounding quotes stripped
when both present — `discourse_id[0]` raises `IndexError` on an empty
slice), and `drs_id = line[comma_idx+1:line.index(')')]`. -/
def extractDiscourseId (line : String) : Except DemuxError (String × String) :=
  match charIndexOf line.data ',' with
  | none => .error .valueError
  | some commaIdx =>
    let dIdChars := (line.data.drop 3).take (commaIdx - 3)
    match dIdChars with
    | [] => .error .indexError
    | c :: _ =>
      let dId := if c = '\'' && dIdChars.getLast? = some '\''
        then (dIdChars.drop 1).dropLast else dIdChars
      match charIndexOf line.data ')' with
      | none => .error .valueError
      | some closeIdx =>
        let drsId := (line.data.drop (commaIdx + 1)).take (closeIdx - (commaIdx + 1))
        .ok (String.mk dId, String.mk drsId)

/-- The `while i < len(lines)` loop of `Boxer._parse_to_drs_dict`: on a line
starting with `id(`, dissect it, fetch `lines[i+4]` and `lines[i+8]` (an
out-of-range subscript raises `IndexError`), check the `sem(<drs_id>,`
prefix and the `).` suffix (an `assert` failure), strip the suffix, parse
and simplify the term, clean it with `_nn`, store it under the discourse
id, and skip ahead by 9 lines; otherwise move to the next line.  `fuel`
only bounds the recursion (`i` grows at every step, so `lines.length + 1`
always suffices). -/
def demuxLoop (occurIndex useDiscId : Bool) (lines : List String) :
    Nat → Nat → DrsDict → Except DemuxError DrsDict
  | 0, _, _ => .error .outOfFuel
  | fuel + 1, i, acc =>
    if i < lines.length then
      match lines[i]? with
      | none => .error .indexError
      | some line =>
        if strStartsWith line "id(" then
          match extractDiscourseId line with
          | .error e => .error e
          | .ok (discourseId, drsId) =>
            match lines[i + 4]? with
            | none => .error .indexError
            | some line4 =>
              if strStartsWith line4 ("sem(" ++ drsId ++ ",") then
                match lines[i + 8]? with
                | none => .error .indexError
                | some line8 =>
                  if strEndsWith line8 ")." then
                    let drsInput := String.mk (pyStrip line8.data.dropLast.dropLast)
                    match parse ⟨occurIndex, if useDiscId then some discourseId else none⟩ drsInput with
                    | .error e => .error (.parseError e)
                    | .ok drsE =>
                      match nn (simplifyLib drsE) with
                      | .error e => .error (.simplifyError e)
                      | .ok cleaned =>
                        demuxLoop occurIndex useDiscId lines fuel (i + 9)
                          (dictInsert acc discourseId cleaned)
                  else .error .assertionError
              else .error .assertionError
        else demuxLoop occurIndex useDiscId lines fuel (i + 1) acc
    else .ok acc

/-- `Boxer._parse_to_drs_dict(boxer_out, occur_index, use_disc_id)`. -/
def parseToDrsDict (boxerOut : String) (occurIndex useDiscId : Bool) :
    Except DemuxError DrsDict :=
  let lines := splitLines boxerOut
  demuxLoop occurIndex useDiscId lines (lines.length + 1) 0 []

/-- The result materialization of `batch_interpret_multisentence`:
`[drs_dict.get(id, None) for id in discourse_ids]`. -/
def batchSlots (drsDict : DrsDict) (discourseIds : List String) : List (Option Expr) :=
  discourseIds.map fun dId => dictGet drsDict dId

/-- The discourse identifiers that appear in the raw output: those
extractable from lines beginning with `id(`. -/
def extractedIds (lines : List String) : List String :=
  lines.filterMap fun l =>
    if strStartsWith l "id(" then (extractDiscourseId l).toOption.map (·.1) else none

/-- Whether an expression is a variable expression. -/
def isVarE : Expr → Bool
  | .var _ => true
  | _ => false

/-- The arity digit encoded at the end of a predicate name: the last
character, when it is a decimal digit. -/
def encodedArity (s : String) : Option Nat :=
  s.data.getLast?.bind fun c => if c.isDigit then some (c.toNat - '0'.toNat) else none

/-- Well-formedness of one application chain as the parser builds them: the
head is a variable expression, every argument is a variable expression, and
the number of arguments equals the arity digit encoded at the end of the
head's name. -/
def chainOk (e : Expr) : Bool :=
  match appHead e with
  | .var n => (appArgs e).all isVarE && (encodedArity n == some (appArgCount e))
  | _ => false

mutual

/-- Every atom (maximal application chain) in the tree satisfies `chainOk`.
Since `chainOk` requires all chain arguments to be variable expressions, no
recursion below an application node is needed. -/
def atomsWf : Expr → Bool
  | .var _ => true
  | .drs _ conds => atomsWfList conds
  | .neg t => atomsWf t
  | .lam _ t => atomsWf t
  | .or a b => atomsWf a && atomsWf b
  | .imp a b => atomsWf a && atomsWf b
  | .eq a b => atomsWf a && atomsWf b
  | .concat a b => atomsWf a && atomsWf b
  | .app f a => chainOk (.app f a)

/-- `atomsWf` over a condition list. -/
def atomsWfList : List Expr → Bool
  | [] => true
  | c :: cs => atomsWf c && atomsWfList cs

end

mutual

/-- Whether some application chain in the tree has a head variable whose
name satisfies the given test. -/
def hasAtomPred (test : String → Bool) : Expr → Bool
  | .var _ => false
  | .drs _ conds => hasAtomPredList test conds
  | .neg t => hasAtomPred test t
  | .lam _ t => hasAtomPred test t
  | .or a b => hasAtomPred test a || hasAtomPred test b
  | .imp a b => hasAtomPred test a || hasAtomPred test b
  | .eq a b => hasAtomPred test a || hasAtomPred test b
  | .concat a b => hasAtomPred test a || hasAtomPred test b
  | .app f a =>
    (match appHead (.app f a) with
      | .var n => test n
      | _ => false) || hasAtomPred test f || hasAtomPred test a

/-- `hasAtomPred` over a condition list. -/
def hasAtomPredList (test : String → Bool) : List Expr → Bool
  | [] => false
  | c :: cs => hasAtomPred test c || hasAtomPredList test cs

end

/-- The invariant carried through the recursive-descent parser: every
expression a parse entry point returns has well-formed atoms. -/
def Inv (recP : RecP) : Prop :=
  ∀ toks e r, recP toks = .ok (e, r) → atomsWf e = true

/-- The nine lines of one discourse block whose term fails to parse. -/
def badBlockLines : List String :=
  ["id('1',1).", "", "", "", "sem(1,x", "", "", "",
   "drs([],[[0]:badcond(x0)])."]

/-! Support lemmas. -/

theorem expr_induction {P : Expr → Prop}
    (hvar : ∀ n, P (.var n))
    (hdrs : ∀ refs conds, (∀ c ∈ conds, P c) → P (.drs refs conds))
    (hneg : ∀ t, P t → P (.neg t))
    (hlam : ∀ v t, P t → P (.lam v t))
    (hor : ∀ a b, P a → P b → P (.or a b))
    (himp : ∀ a b, P a → P b → P (.imp a b))
    (heq : ∀ a b, P a → P b → P (.eq a b))
    (hconcat : ∀ a b, P a → P b → P (.concat a b))
    (happ : ∀ f a, P f → P a → P (.app f a)) :
    ∀ e, P e := by
  have key : ∀ n e, sizeOf e ≤ n → P e := by
    intro n
    induction n with
    | zero => intro e he; cases e <;> simp_arith at he
    | succ n ih =>
      intro e he
      cases e with
      | var s => exact hvar s
      | drs refs conds =>
        refine hdrs refs conds fun c hc => ih c ?_
        have hlt := List.sizeOf_lt_of_mem hc
        simp only [Expr.drs.sizeOf_spec] at he
        omega
      | neg t =>
        refine hneg t (ih t ?_)
        simp only [Expr.neg.sizeOf_spec] at he; omega
      | lam v t =>
        refine hlam v t (ih t ?_)
        simp only [Expr.lam.sizeOf_spec] at he; omega
      | or a b =>
        refine hor a b (ih a ?_) (ih b ?_) <;>
          (simp only [Expr.or.sizeOf_spec] at he; omega)
      | imp a b =>
        refine himp a b (ih a ?_) (ih b ?_) <;>
          (simp only [Expr.imp.sizeOf_spec] at he; omega)
      | eq a b =>
        refine heq a b (ih a ?_) (ih b ?_) <;>
          (simp only [Expr.eq.sizeOf_spec] at he; omega)
      | concat a b =>
        refine hconcat a b (ih a ?_) (ih b ?_) <;>
          (simp only [Expr.concat.sizeOf_spec] at he; omega)
      | app f a =>
        refine happ f a (ih f ?_) (ih a ?_) <;>
          (simp only [Expr.app.sizeOf_spec] at he; omega)
  exact fun e => key (sizeOf e) e le_rfl

theorem appArgs_length : ∀ e : Expr, (appArgs e).length = appArgCount e := by
  refine expr_induction ?_ ?_ ?_ ?_ ?_ ?_ ?_ ?_ ?_ <;> intros <;>
    simp_all [appArgs, appArgCount]

theorem nn_chain_unchanged :
    ∀ e : Expr, ∀ n, appHead e = .var n → n ≠ "r_nn_2" →
      (appArgs e).all isVarE = true → nn e = .ok e := by
  refine expr_induction ?_ ?_ ?_ ?_ ?_ ?_ ?_ ?_ ?_
  · intro s n _ _ _; rfl
  · intro refs conds _ n hh; simp [appHead] at hh
  · intro t _ n hh; simp [appHead] at hh
  · intro v t _ n hh; simp [appHead] at hh
  · intro a b _ _ n hh; simp [appHead] at hh
  · intro a b _ _ n hh; simp [appHead] at hh
  · intro a b _ _ n hh; simp [appHead] at hh
  · intro a b _ _ n hh; simp [appHead] at hh
  · intro f a ihf _iha n hh hrnn hargs
    have hhf : appHead f = .var n := by simpa [appHead] using hh
    simp only [appArgs, List.all_append, List.all_cons, List.all_nil,
      Bool.and_true, Bool.and_eq_true] at hargs
    obtain ⟨hargsf, hav⟩ := hargs
    have hfa : nn f = .ok f := ihf n hhf hrnn hargsf
    have hna : nn a = .ok a := by
      cases a with
      | var s => rfl
      | _ => simp [isVarE] at hav
    simp [nn, appHead, hhf, headVariableName, hrnn, hfa, hna, Bind.bind, Except.bind]

theorem hasAtomPred_chain_false (test : String → Bool) :
    ∀ e : Expr, ∀ n, appHead e = .var n → test n = false →
      (appArgs e).all isVarE = true → hasAtomPred test e = false := by
  refine expr_induction ?_ ?_ ?_ ?_ ?_ ?_ ?_ ?_ ?_
  · intro s n _ _ _; rfl
  · intro refs conds _ n hh; simp [appHead] at hh
  · intro t _ n hh; simp [appHead] at hh
  · intro v t _ n hh; simp [appHead] at hh
  · intro a b _ _ n hh; simp [appHead] at hh
  · intro a b _ _ n hh; simp [appHead] at hh
  · intro a b _ _ n hh; simp [appHead] at hh
  · intro a b _ _ n hh; simp [appHead] at hh
  · intro f a ihf _iha n hh htest hargs
    have hhf : appHead f = .var n := by simpa [appHead] using hh
    simp only [appArgs, List.all_append, List.all_cons, List.all_nil,
      Bool.and_true, Bool.and_eq_true] at hargs
    obtain ⟨hargsf, hav⟩ := hargs
    have hf : hasAtomPred test f = false := ihf n hhf htest hargsf
    have ha : hasAtomPred test a = false := by
      cases a with
      | var s => rfl
      | _ => simp [isVarE] at hav
    simp [hasAtomPred, appHead, hhf, htest, hf, ha]

theorem nn_clean_list_aux (test : String → Bool) :
    ∀ l : List Expr,
      (∀ c ∈ l, atomsWf c = true →
        ∃ c2, nn c = .ok c2 ∧ hasAtomPred test c2 = false) →
      atomsWfList l = true →
      ∃ l2, nnList l = .ok l2 ∧ hasAtomPredList test l2 = false := by
  intro l
  induction l with
  | nil => exact fun _ _ => ⟨[], rfl, rfl⟩
  | cons c cs ih =>
    intro hp hwf
    simp only [atomsWfList, Bool.and_eq_true] at hwf
    obtain ⟨c2, hc2, hcc⟩ := hp c (by simp) hwf.1
    obtain ⟨cs2, hcs2, hcsc⟩ := ih (fun d hd => hp d (by simp [hd])) hwf.2
    exact ⟨c2 :: cs2, by simp [nnList, hc2, hcs2, Bind.bind, Except.bind],
      by simp [hasAtomPredList, hcc, hcsc]⟩

theorem nn_clean :
    ∀ e : Expr, atomsWf e = true →
      ∃ e2, nn e = .ok e2 ∧ hasAtomPred (fun n => n == "r_nn_2") e2 = false := by
  refine expr_induction ?_ ?_ ?_ ?_ ?_ ?_ ?_ ?_ ?_
  · exact fun n _ => ⟨.var n, rfl, rfl⟩
  · intro refs conds ih hwf
    obtain ⟨l2, hl2, hlc⟩ := nn_clean_list_aux _ conds ih (by simpa [atomsWf] using hwf)
    exact ⟨.drs refs l2, by simp [nn, hl2, Except.map], by simp [hasAtomPred, hlc]⟩
  · intro t ih hwf
    obtain ⟨t2, ht2, htc⟩ := ih (by simpa [atomsWf] using hwf)
    exact ⟨.neg t2, by simp [nn, ht2, Except.map], by simp [hasAtomPred, htc]⟩
  · intro v t ih hwf
    obtain ⟨t2, ht2, htc⟩ := ih (by simpa [atomsWf] using hwf)
    exact ⟨.lam v t2, by simp [nn, ht2, Except.map], by simp [hasAtomPred, htc]⟩
  · intro a b iha ihb hwf
    simp only [atomsWf, Bool.and_eq_true] at hwf
    obtain ⟨a2, ha2, hac⟩ := iha hwf.1
    obtain ⟨b2, hb2, hbc⟩ := ihb hwf.2
    exact ⟨.or a2 b2, by simp [nn, ha2, hb2, Bind.bind, Except.bind],
      by simp [hasAtomPred, hac, hbc]⟩
  · intro a b iha ihb hwf
    simp only [atomsWf, Bool.and_eq_true] at hwf
    obtain ⟨a2, ha2, hac⟩ := iha hwf.1
    obtain ⟨b2, hb2, hbc⟩ := ihb hwf.2
    exact ⟨.imp a2 b2, by simp [nn, ha2, hb2, Bind.bind, Except.bind],
      by simp [hasAtomPred, hac, hbc]⟩
  · intro a b iha ihb hwf
    simp only [atomsWf, Bool.and_eq_true] at hwf
    obtain ⟨a2, ha2, hac⟩ := iha hwf.1
    obtain ⟨b2, hb2, hbc⟩ := ihb hwf.2
    exact ⟨.eq a2 b2, by simp [nn, ha2, hb2, Bind.bind, Except.bind],
      by simp [hasAtomPred, hac, hbc]⟩
  · intro a b iha ihb hwf
    simp only [atomsWf, Bool.and_eq_true] at hwf
    obtain ⟨a2, ha2, hac⟩ := iha hwf.1
    obtain ⟨b2, hb2, hbc⟩ := ihb hwf.2
    exact ⟨.concat a2 b2, by simp [nn, ha2, hb2, Bind.bind, Except.bind],
      by simp [hasAtomPred, hac, hbc]⟩
  · intro f a _ihf _iha hwf
    simp only [atomsWf] at hwf
    unfold chainOk at hwf
    cases hh : appHead (.app f a) with
    | var n =>
      rw [hh] at hwf
      simp only [Bool.and_eq_true, beq_iff_eq] at hwf
      obtain ⟨hargs, harity⟩ := hwf
      by_cases hrnn : n = "r_nn_2"
      · subst hrnn
        have hcount : appArgCount (.app f a) = 2 := by
          have : encodedArity "r_nn_2" = some 2 := rfl
          rw [this] at harity
          exact (Option.some_inj.mp harity).symm
        have hlen : (appArgs (.app f a)).length = 2 := by
          rw [appArgs_length]; exact hcount
        obtain ⟨x, y, hxy⟩ := List.length_eq_two.mp hlen
        rw [hxy] at hargs
        simp only [List.all_cons, List.all_nil, Bool.and_true,
          Bool.and_eq_true] at hargs
        obtain ⟨hx, hy⟩ := hargs
        refine ⟨.eq x y, ?_, ?_⟩
        · simp [nn, hh, headVariableName, hxy]
        · cases x with
          | var xs =>
            cases y with
            | var ys => rfl
            | _ => simp [isVarE] at hy
          | _ => simp [isVarE] at hx
      · have htest : (n == "r_nn_2") = false := by simp [hrnn]
        exact ⟨.app f a, nn_chain_unchanged (.app f a) n hh hrnn hargs,
          hasAtomPred_chain_false _ (.app f a) n hh htest hargs⟩
    | drs refs conds => rw [hh] at hwf; simp at hwf
    | neg t => rw [hh] at hwf; simp at hwf
    | lam v t => rw [hh] at hwf; simp at hwf
    | or x y => rw [hh] at hwf; simp at hwf
    | imp x y => rw [hh] at hwf; simp at hwf
    | eq x y => rw [hh] at hwf; simp at hwf
    | concat x y => rw [hh] at hwf; simp at hwf
    | app x y => rw [hh] at hwf; simp at hwf

theorem makePred_nil (cfg : Cfg) (pos name : String) (arity : Nat) :
    makePred cfg pos name [] arity = "r" ++ "_" ++ name ++ "_" ++ toString arity := by
  simp [makePred, String.append_assoc]

theorem makeVariable_of_head_ne (s : String) (h : s.data.head? ≠ some '_') :
    makeVariable s = s := by
  unfold makeVariable strStartsWith
  cases hd : s.data with
  | nil => simp [show ("_G" : String).data = ['_', 'G'] from rfl, hd, List.isPrefixOf]
  | cons c t =>
    have hc : ('_' == c) = false := by
      rw [hd] at h
      simp only [List.head?] at h
      simp only [beq_eq_false_iff_ne, ne_eq]
      intro he
      exact h (by rw [← he])
    simp [show ("_G" : String).data = ['_', 'G'] from rfl, hd, List.isPrefixOf, hc]

theorem makeVariable_r_pred (x : String) :
    makeVariable ("r" ++ x) = "r" ++ x := by
  apply makeVariable_of_head_ne
  simp [String.data_append, show ("r" : String).data = ['r'] from rfl]

theorem makeVariable_whq_pred (t s : String) :
    makeVariable ("r_" ++ t ++ "_" ++ s) = "r_" ++ t ++ "_" ++ s := by
  apply makeVariable_of_head_ne
  simp [String.data_append, show ("r_" : String).data = ['r', '_'] from rfl]

theorem bind_ok {α β γ : Type} {x : Except γ α} {f : α → Except γ β} {v : β}
    (h : (x >>= f) = .ok v) : ∃ w, x = .ok w ∧ f w = .ok v := by
  cases x with
  | error e => simp [Bind.bind, Except.bind] at h
  | ok w => exact ⟨w, rfl, h⟩

theorem map_ok {α β γ : Type} {x : Except γ α} {g : α → β} {v : β}
    (h : x.map g = .ok v) : ∃ w, x = .ok w ∧ g w = v := by
  cases x with
  | error e => simp [Except.map] at h
  | ok w => exact ⟨w, rfl, by simpa [Except.map] using h⟩

theorem nextTok_ok {toks : List String} {t : String} {r : List String}
    (h : nextTok toks = .ok (t, r)) : toks = t :: r := by
  cases toks with
  | nil => simp [nextTok] at h
  | cons a rest => simp [nextTok] at h; simp [h.1, h.2]

theorem expectTok_ok {expected : String} {toks r : List String}
    (h : expectTok expected toks = .ok r) : toks = expected :: r := by
  cases toks with
  | nil => simp [expectTok, nextTok, Bind.bind, Except.bind] at h
  | cons a rest =>
    simp only [expectTok, nextTok, Bind.bind, Except.bind] at h
    by_cases ha : a = expected
    · subst ha; simp at h; simp [h]
    · simp [ha] at h

theorem find?_key_filter_ne (kIns k : String) (h : k ≠ kIns) :
    ∀ d : DrsDict,
      List.find? (fun p => p.1 == k) (d.filter fun p => p.1 != kIns) =
        List.find? (fun p => p.1 == k) d := by
  intro d
  induction d with
  | nil => rfl
  | cons p rest ih =>
    by_cases hp : p.1 = kIns
    · have h1 : (p.1 != kIns) = false := by simp [hp]
      have h2 : (p.1 == k) = false := by
        simp only [beq_eq_false_iff_ne, ne_eq]
        intro he; exact h (he ▸ hp)
      simp [List.filter_cons, h1, List.find?_cons, h2, ih]
    · have h1 : (p.1 != kIns) = true := by simp [hp]
      by_cases hk : p.1 = k
      · simp [List.filter_cons, h1, List.find?_cons, hk, h]
      · have h2 : (p.1 == k) = false := by simp [hk]
        simp [List.filter_cons, h1, List.find?_cons, h2, ih]

theorem dictGet_insert_ne (d : DrsDict) (kIns k : String) (v : Expr)
    (h : k ≠ kIns) : dictGet (dictInsert d kIns v) k = dictGet d k := by
  unfold dictGet dictInsert
  rw [List.find?_append, find?_key_filter_ne kIns k h d]
  have h2 : (kIns == k) = false := by
    simp only [beq_eq_false_iff_ne, ne_eq]
    intro he; exact h he.symm
  simp [List.find?_cons, h2]

theorem mem_extractedIds (lines : List String) (i : Nat) (line : String)
    (dId drsId : String) (hline : lines[i]? = some line)
    (hid : strStartsWith line "id(" = true)
    (hex : extractDiscourseId line = .ok (dId, drsId)) :
    dId ∈ extractedIds lines := by
  unfold extractedIds
  rw [List.mem_filterMap]
  refine ⟨line, ?_, by simp [hid, hex, Except.toOption]⟩
  obtain ⟨hi, rfl⟩ := List.getElem?_eq_some.mp hline
  exact List.getElem_mem hi

theorem demuxLoop_keys (occ ud : Bool) (lines : List String) :
    ∀ fuel i acc d k, demuxLoop occ ud lines fuel i acc = .ok d →
      (dictGet d k).isSome = true →
      (dictGet acc k).isSome = true ∨ k ∈ extractedIds lines := by
  intro fuel
  induction fuel with
  | zero => intro i acc d k h; simp [demuxLoop] at h
  | succ fuel ih =>
    intro i acc d k h hk
    by_cases hi : i < lines.length
    · cases hline : lines[i]? with
      | none => rw [demuxLoop] at h; simp [hi, hline] at h
      | some line =>
        by_cases hid : strStartsWith line "id(" = true
        · cases hex : extractDiscourseId line with
          | error e => rw [demuxLoop] at h; simp [hi, hline, hid, hex] at h
          | ok pair =>
            obtain ⟨dId, drsId⟩ := pair
            cases h4 : lines[i + 4]? with
            | none => rw [demuxLoop] at h; simp [hi, hline, hid, hex, h4] at h
            | some line4 =>
              by_cases hsem : strStartsWith line4 ("sem(" ++ drsId ++ ",") = true
              · cases h8 : lines[i + 8]? with
                | none =>
                  rw [demuxLoop] at h; simp [hi, hline, hid, hex, h4, hsem, h8] at h
                | some line8 =>
                  by_cases hend : strEndsWith line8 ")." = true
                  · cases hp : parse ⟨occ, if ud then some dId else none⟩
                        (String.mk (pyStrip line8.data.dropLast.dropLast)) with
                    | error e =>
                      rw [demuxLoop] at h
                      simp [hi, hline, hid, hex, h4, hsem, h8, hend, hp] at h
                    | ok drsE =>
                      cases hnn : nn (simplifyLib drsE) with
                      | error e =>
                        rw [demuxLoop] at h
                        simp [hi, hline, hid, hex, h4, hsem, h8, hend, hp, hnn] at h
                      | ok cleaned =>
                        rw [demuxLoop] at h
                        simp only [hi, if_true, hline, hid, hex, h4, hsem, h8,
                          hend, hp, hnn] at h
                        rcases ih (i + 9) (dictInsert acc dId cleaned) d k h hk with
                          hacc | hmem
                        · by_cases hkd : k = dId
                          · exact Or.inr (hkd ▸
                              mem_extractedIds lines i line dId drsId hline hid hex)
                          · rw [dictGet_insert_ne acc dId k cleaned hkd] at hacc
                            exact Or.inl hacc
                        · exact Or.inr hmem
                  · rw [demuxLoop] at h
                    simp [hi, hline, hid, hex, h4, hsem, h8, hend] at h
              · rw [demuxLoop] at h; simp [hi, hline, hid, hex, h4, hsem] at h
        · rw [demuxLoop] at h
          simp only [hi, if_true, hline, hid] at h
          exact ih (i + 1) acc d k h hk
    · rw [demuxLoop] at h
      simp only [hi, if_false] at h
      simp only [Except.ok.injEq] at h
      subst h
      exact Or.inl hk

/-! Atom well-formedness of everything the parser builds. -/

theorem encodedArity_append_one (a : String) :
    encodedArity (a ++ toString (1 : Nat)) = some 1 := by
  have h : (a ++ toString (1 : Nat)).data = a.data ++ ['1'] := by
    rw [String.data_append]; rfl
  unfold encodedArity
  rw [h, List.getLast?_concat]
  rfl

theorem encodedArity_append_two (a : String) :
    encodedArity (a ++ toString (2 : Nat)) = some 2 := by
  have h : (a ++ toString (2 : Nat)).data = a.data ++ ['2'] := by
    rw [String.data_append]; rfl
  unfold encodedArity
  rw [h, List.getLast?_concat]
  rfl

theorem encodedArity_makeVariable (s : String) (h : 3 ≤ s.data.length) :
    encodedArity (makeVariable s) = encodedArity s := by
  unfold makeVariable
  by_cases hs : strStartsWith s "_G" = true
  · rw [if_pos hs]
    unfold strStartsWith at hs
    obtain ⟨t, ht⟩ : ∃ t, s.data = '_' :: 'G' :: t := by
      cases hd : s.data with
      | nil =>
        rw [hd] at hs
        simp [show ("_G" : String).data = ['_', 'G'] from rfl, List.isPrefixOf] at hs
      | cons c rest =>
        cases rest with
        | nil =>
          rw [hd] at hs
          simp [show ("_G" : String).data = ['_', 'G'] from rfl, List.isPrefixOf] at hs
        | cons c2 rest2 =>
          rw [hd] at hs
          simp [show ("_G" : String).data = ['_', 'G'] from rfl,
            List.isPrefixOf, beq_iff_eq] at hs
          exact ⟨rest2, by rw [← hs.1, ← hs.2]⟩
    cases t with
    | nil => rw [ht] at h; simp at h
    | cons c t2 =>
      unfold encodedArity
      rw [show ("z" ++ String.mk (s.data.drop 2)).data = 'z' :: s.data.drop 2 from
        by rw [String.data_append]; rfl]
      rw [ht]
      simp [List.getLast?_cons_cons]
  · rw [if_neg hs]

theorem encodedArity_makePred_one (cfg : Cfg) (pos name : String)
    (indices : List (Int × Int)) :
    encodedArity (makeVariable (makePred cfg pos name indices 1)) = some 1 := by
  rw [encodedArity_makeVariable]
  · unfold makePred
    exact encodedArity_append_one _
  · unfold makePred
    simp only [String.data_append, List.length_append]
    simp [show ("_" : String).data = ['_'] from rfl]
    have he : (toString (1 : Nat)).length = 1 := rfl
    omega

theorem makeVariable_n_pred (t s : String) :
    makeVariable ("n_" ++ t ++ "_" ++ s) = "n_" ++ t ++ "_" ++ s := by
  apply makeVariable_of_head_ne
  simp [String.data_append, show ("n_" : String).data = ['n', '_'] from rfl]

theorem appHead_foldl (args : List Expr) :
    ∀ b : Expr, appHead (args.foldl .app b) = appHead b := by
  induction args with
  | nil => intro b; rfl
  | cons a as ih =>
    intro b
    rw [List.foldl_cons, ih]
    rfl

theorem appArgs_foldl (args : List Expr) :
    ∀ b : Expr, appArgs (args.foldl .app b) = appArgs b ++ args := by
  induction args with
  | nil => intro b; simp
  | cons a as ih =>
    intro b
    rw [List.foldl_cons, ih]
    simp [appArgs, List.append_assoc]

theorem atomsWf_mkAtom (pred : String) (args : List Expr)
    (hv : args.all isVarE = true) (hne : args ≠ [])
    (ha : encodedArity (makeVariable pred) = some args.length) :
    atomsWf (mkAtom pred args) = true := by
  unfold mkAtom
  cases args with
  | nil => exact absurd rfl hne
  | cons a as =>
    have hshape : ∀ (as2 : List Expr) (f x : Expr),
        ∃ f2 x2, as2.foldl Expr.app (Expr.app f x) = .app f2 x2 := by
      intro as2
      induction as2 with
      | nil => exact fun f x => ⟨f, x, rfl⟩
      | cons y ys ih => intro f x; rw [List.foldl_cons]; exact ih _ _
    have hfold : (a :: as).foldl Expr.app (Expr.var (makeVariable pred)) =
        as.foldl Expr.app (Expr.app (Expr.var (makeVariable pred)) a) :=
      List.foldl_cons ..
    obtain ⟨f2, x2, he⟩ := hshape as (.var (makeVariable pred)) a
    rw [hfold, he]
    have hwf : atomsWf (.app f2 x2) = chainOk (.app f2 x2) := by simp [atomsWf]
    rw [hwf, ← he, ← hfold]
    unfold chainOk
    rw [appHead_foldl]
    simp only [appHead]
    rw [appArgs_foldl]
    simp only [appArgs, List.nil_append]
    have hcount : appArgCount ((a :: as).foldl Expr.app (Expr.var (makeVariable pred))) =
        (a :: as).length := by
      rw [← appArgs_length, appArgs_foldl]
      simp [appArgs]
    rw [hcount]
    simp [hv, ha]

theorem atomsWfList_append (l1 l2 : List Expr) :
    atomsWfList (l1 ++ l2) = (atomsWfList l1 && atomsWfList l2) := by
  induction l1 with
  | nil => simp [atomsWfList]
  | cons c cs ih => simp [atomsWfList, ih, Bool.and_assoc]

theorem atomsWfList_singleton (e : Expr) : atomsWfList [e] = atomsWf e := by
  simp [atomsWfList]

theorem atomsWfList_map_of (l : List String) (g : String → Expr)
    (hg : ∀ x, atomsWf (g x) = true) : atomsWfList (l.map g) = true := by
  induction l with
  | nil => rfl
  | cons x xs ih => simp [atomsWfList, hg, ih]

theorem atomsWf_mkAtom_str1 (p a1 : String)
    (hp : encodedArity (makeVariable p) = some 1) :
    atomsWf (mkAtom p [strArg a1]) = true :=
  atomsWf_mkAtom p _ (by simp [strArg, isVarE]) (by simp) (by simpa using hp)

theorem atomsWf_mkAtom_str2 (p a1 a2 : String)
    (hp : encodedArity (makeVariable p) = some 2) :
    atomsWf (mkAtom p [strArg a1, strArg a2]) = true :=
  atomsWf_mkAtom p _ (by simp [strArg, isVarE]) (by simp) (by simpa using hp)

theorem atomsWf_mkAtom_str3 (p a1 a2 a3 : String)
    (hp : encodedArity (makeVariable p) = some 3) :
    atomsWf (mkAtom p [strArg a1, strArg a2, strArg a3]) = true :=
  atomsWf_mkAtom p _ (by simp [strArg, isVarE]) (by simp) (by simpa using hp)

theorem handlePred_wf (cfg : Cfg) (indices : List (Int × Int))
    (toks : List String) (e : Expr) (r : List String)
    (h : handlePred cfg indices toks = .ok (e, r)) : atomsWf e = true := by
  unfold handlePred at h
  obtain ⟨r1, -, h⟩ := bind_ok h
  obtain ⟨⟨arg, r2⟩, -, h⟩ := bind_ok h
  obtain ⟨r3, -, h⟩ := bind_ok h
  obtain ⟨⟨nm, r4⟩, -, h⟩ := bind_ok h
  obtain ⟨r5, -, h⟩ := bind_ok h
  obtain ⟨⟨fPos, r6⟩, -, h⟩ := bind_ok h
  obtain ⟨r7, -, h⟩ := bind_ok h
  obtain ⟨⟨fSense, r8⟩, -, h⟩ := bind_ok h
  obtain ⟨r9, -, h⟩ := bind_ok h
  simp only [Except.ok.injEq, Prod.mk.injEq] at h
  rw [← h.1]
  exact atomsWf_mkAtom_str1 _ _ (encodedArity_makePred_one cfg fPos _ indices)

theorem handleNamed_wf (toks : List String) (e : Expr) (r : List String)
    (h : handleNamed toks = .ok (e, r)) : atomsWf e = true := by
  unfold handleNamed at h
  obtain ⟨r1, -, h⟩ := bind_ok h
  obtain ⟨⟨arg, r2⟩, -, h⟩ := bind_ok h
  obtain ⟨r3, -, h⟩ := bind_ok h
  obtain ⟨⟨nm, r4⟩, -, h⟩ := bind_ok h
  obtain ⟨r5, -, h⟩ := bind_ok h
  obtain ⟨⟨fPos, r6⟩, -, h⟩ := bind_ok h
  obtain ⟨r7, -, h⟩ := bind_ok h
  obtain ⟨⟨fSense, r8⟩, -, h⟩ := bind_ok h
  obtain ⟨r9, -, h⟩ := bind_ok h
  simp only [Except.ok.injEq, Prod.mk.injEq] at h
  rw [← h.1]
  refine atomsWf_mkAtom_str1 _ _ ?_
  rw [makeVariable_n_pred]
  exact encodedArity_append_one _

theorem handleRel_wf (toks : List String) (e : Expr) (r : List String)
    (h : handleRel toks = .ok (e, r)) : atomsWf e = true := by
  unfold handleRel at h
  obtain ⟨r1, -, h⟩ := bind_ok h
  obtain ⟨⟨arg1, r2⟩, -, h⟩ := bind_ok h
  obtain ⟨r3, -, h⟩ := bind_ok h
  obtain ⟨⟨arg2, r4⟩, -, h⟩ := bind_ok h
  obtain ⟨r5, -, h⟩ := bind_ok h
  obtain ⟨⟨nm, r6⟩, -, h⟩ := bind_ok h
  obtain ⟨r7, -, h⟩ := bind_ok h
  obtain ⟨⟨fSense, r8⟩, -, h⟩ := bind_ok h
  obtain ⟨r9, -, h⟩ := bind_ok h
  simp only [Except.ok.injEq, Prod.mk.injEq] at h
  rw [← h.1]
  refine atomsWf_mkAtom_str2 _ _ _ ?_
  rw [makeVariable_whq_pred]
  exact encodedArity_append_two _

theorem handleCard_wf (toks : List String) (e : Expr) (r : List String)
    (h : handleCard toks = .ok (e, r)) : atomsWf e = true := by
  unfold handleCard at h
  obtain ⟨r1, -, h⟩ := bind_ok h
  obtain ⟨⟨arg, r2⟩, -, h⟩ := bind_ok h
  obtain ⟨r3, -, h⟩ := bind_ok h
  obtain ⟨⟨value, r4⟩, -, h⟩ := bind_ok h
  obtain ⟨r5, -, h⟩ := bind_ok h
  obtain ⟨⟨rel, r6⟩, -, h⟩ := bind_ok h
  obtain ⟨r7, -, h⟩ := bind_ok h
  simp only [Except.ok.injEq, Prod.mk.injEq] at h
  rw [← h.1]
  exact atomsWf_mkAtom_str3 _ _ _ _ rfl

theorem handleEq_wf (toks : List String) (e : Expr) (r : List String)
    (h : handleEq toks = .ok (e, r)) : atomsWf e = true := by
  unfold handleEq at h
  obtain ⟨r1, -, h⟩ := bind_ok h
  obtain ⟨⟨v1, r2⟩, -, h⟩ := bind_ok h
  obtain ⟨r3, -, h⟩ := bind_ok h
  obtain ⟨⟨v2, r4⟩, -, h⟩ := bind_ok h
  obtain ⟨r5, -, h⟩ := bind_ok h
  simp only [Except.ok.injEq, Prod.mk.injEq] at h
  rw [← h.1]
  simp [atomsWf]

theorem handleDate_wf (arg : String) (toks : List String) (conds : List Expr)
    (r : List String) (h : handleDate arg toks = .ok (conds, r)) :
    atomsWfList conds = true := by
  unfold handleDate at h
  obtain ⟨⟨i1, r1⟩, -, h⟩ := bind_ok h
  obtain ⟨⟨pol, r2⟩, -, h⟩ := bind_ok h
  obtain ⟨r3, -, h⟩ := bind_ok h
  obtain ⟨⟨i2, r4⟩, -, h⟩ := bind_ok h
  obtain ⟨⟨year, r5⟩, -, h⟩ := bind_ok h
  obtain ⟨r6, -, h⟩ := bind_ok h
  obtain ⟨⟨i3, r7⟩, -, h⟩ := bind_ok h
  obtain ⟨⟨month, r8⟩, -, h⟩ := bind_ok h
  obtain ⟨r9, -, h⟩ := bind_ok h
  obtain ⟨⟨i4, r10⟩, -, h⟩ := bind_ok h
  obtain ⟨⟨day, r11⟩, -, h⟩ := bind_ok h
  simp only [Except.ok.injEq, Prod.mk.injEq] at h
  rw [← h.1]
  simp only [atomsWfList_append, Bool.and_eq_true]
  refine ⟨⟨⟨?_, ?_⟩, ?_⟩, ?_⟩
  · split
    · rw [atomsWfList_singleton]; exact atomsWf_mkAtom_str2 "r_pol_2" arg "pos" rfl
    · split
      · rw [atomsWfList_singleton]; exact atomsWf_mkAtom_str2 "r_pol_2" arg "neg" rfl
      · rfl
  · split
    · rw [atomsWfList_singleton]
      exact atomsWf_mkAtom_str2 "r_year_2" arg (yearClean year) rfl
    · rfl
  · split
    · rw [atomsWfList_singleton]; exact atomsWf_mkAtom_str2 "r_month_2" arg month rfl
    · rfl
  · split
    · rw [atomsWfList_singleton]; exact atomsWf_mkAtom_str2 "r_day_2" arg day rfl
    · rfl

theorem handleTime_wf (arg : String) (toks : List String) (conds : List Expr)
    (r : List String) (h : handleTime arg toks = .ok (conds, r)) :
    atomsWfList conds = true := by
  unfold handleTime at h
  obtain ⟨⟨i1, r1⟩, -, h⟩ := bind_ok h
  obtain ⟨⟨hour, r2⟩, -, h⟩ := bind_ok h
  obtain ⟨r3, -, h⟩ := bind_ok h
  obtain ⟨⟨i2, r4⟩, -, h⟩ := bind_ok h
  obtain ⟨⟨mn, r5⟩, -, h⟩ := bind_ok h
  obtain ⟨r6, -, h⟩ := bind_ok h
  obtain ⟨⟨i3, r7⟩, -, h⟩ := bind_ok h
  obtain ⟨⟨sec, r8⟩, -, h⟩ := bind_ok h
  simp only [Except.ok.injEq, Prod.mk.injEq] at h
  rw [← h.1]
  simp only [atomsWfList_append, Bool.and_eq_true]
  refine ⟨⟨?_, ?_⟩, ?_⟩
  · split
    · rw [atomsWfList_singleton]; exact atomsWf_mkAtom_str2 "r_hour_2" arg hour rfl
    · rfl
  · split
    · rw [atomsWfList_singleton]; exact atomsWf_mkAtom_str2 "r_min_2" arg mn rfl
    · rfl
  · split
    · rw [atomsWfList_singleton]; exact atomsWf_mkAtom_str2 "r_sec_2" arg sec rfl
    · rfl

theorem handleTimeExpression_wf (arg : String) (toks : List String)
    (oc : Option (List Expr)) (r : List String)
    (h : handleTimeExpression arg toks = .ok (oc, r)) :
    ∀ conds, oc = some conds → atomsWfList conds = true := by
  unfold handleTimeExpression at h
  obtain ⟨⟨tok, r1⟩, -, h⟩ := bind_ok h
  obtain ⟨r2, -, h⟩ := bind_ok h
  by_cases hd : tok = "date"
  · subst hd
    simp only [if_true, if_pos] at h
    obtain ⟨⟨conds0, r3⟩, hdate, h⟩ := bind_ok h
    obtain ⟨r4, -, h⟩ := bind_ok h
    simp only [Except.ok.injEq, Prod.mk.injEq] at h
    intro conds hc
    rw [← h.1] at hc
    have hc2 := Option.some_inj.mp hc
    rw [← hc2]
    simp only [atomsWfList, Bool.and_eq_true]
    exact ⟨atomsWf_mkAtom_str1 _ _ rfl, handleDate_wf arg r2 conds0 r3 hdate⟩
  · rw [if_neg hd] at h
    by_cases ht : tok = "time"
    · subst ht
      rw [if_pos rfl] at h
      obtain ⟨⟨conds0, r3⟩, htime, h⟩ := bind_ok h
      obtain ⟨r4, -, h⟩ := bind_ok h
      simp only [Except.ok.injEq, Prod.mk.injEq] at h
      intro conds hc
      rw [← h.1] at hc
      have hc2 := Option.some_inj.mp hc
      rw [← hc2]
      simp only [atomsWfList, Bool.and_eq_true]
      exact ⟨atomsWf_mkAtom_str1 _ _ rfl, handleTime_wf arg r2 conds0 r3 htime⟩
    · rw [if_neg ht] at h
      simp only [Except.ok.injEq, Prod.mk.injEq] at h
      intro conds hc
      rw [← h.1] at hc
      simp at hc

theorem handleTimex_wf (toks : List String) (oc : Option (List Expr))
    (r : List String) (h : handleTimex toks = .ok (oc, r)) :
    ∀ conds, oc = some conds → atomsWfList conds = true := by
  unfold handleTimex at h
  obtain ⟨r1, -, h⟩ := bind_ok h
  obtain ⟨⟨arg, r2⟩, -, h⟩ := bind_ok h
  obtain ⟨r3, -, h⟩ := bind_ok h
  obtain ⟨⟨oc0, r4⟩, hte, h⟩ := bind_ok h
  obtain ⟨r5, -, h⟩ := bind_ok h
  simp only [Except.ok.injEq, Prod.mk.injEq] at h
  intro conds hc
  rw [← h.1] at hc
  exact handleTimeExpression_wf arg r3 oc0 r4 hte conds hc

theorem handleProp_wf (recP : RecP) (hInv : Inv recP) (toks : List String)
    (e : Expr) (r : List String) (h : handleProp recP toks = .ok (e, r)) :
    atomsWf e = true := by
  unfold handleProp at h
  obtain ⟨r1, -, h⟩ := bind_ok h
  obtain ⟨⟨arg, r2⟩, -, h⟩ := bind_ok h
  obtain ⟨r3, -, h⟩ := bind_ok h
  obtain ⟨⟨d, r4⟩, hd, h⟩ := bind_ok h
  obtain ⟨r5, -, h⟩ := bind_ok h
  simp only [Except.ok.injEq, Prod.mk.injEq] at h
  rw [← h.1]
  exact hInv r3 d r4 hd

theorem handleNot_wf (recP : RecP) (hInv : Inv recP) (toks : List String)
    (e : Expr) (r : List String) (h : handleNot recP toks = .ok (e, r)) :
    atomsWf e = true := by
  unfold handleNot at h
  obtain ⟨r1, -, h⟩ := bind_ok h
  obtain ⟨⟨d, r2⟩, hd, h⟩ := bind_ok h
  obtain ⟨r3, -, h⟩ := bind_ok h
  simp only [Except.ok.injEq, Prod.mk.injEq] at h
  rw [← h.1]
  simpa [atomsWf] using hInv r1 d r2 hd

theorem makeBinaryExpression_wf (recP : RecP) (hInv : Inv recP)
    (ctor : Expr → Expr → Expr)
    (hctor : ∀ x y, atomsWf (ctor x y) = (atomsWf x && atomsWf y))
    (toks : List String) (e : Expr) (r : List String)
    (h : makeBinaryExpression recP ctor toks = .ok (e, r)) : atomsWf e = true := by
  unfold makeBinaryExpression at h
  obtain ⟨r1, -, h⟩ := bind_ok h
  obtain ⟨⟨e1, r2⟩, he1, h⟩ := bind_ok h
  obtain ⟨r3, -, h⟩ := bind_ok h
  obtain ⟨⟨e2, r4⟩, he2, h⟩ := bind_ok h
  obtain ⟨r5, -, h⟩ := bind_ok h
  simp only [Except.ok.injEq, Prod.mk.injEq] at h
  rw [← h.1, hctor]
  simp [hInv r1 e1 r2 he1, hInv r3 e2 r4 he2]

theorem handleWhq_wf (cfg : Cfg) (recP : RecP) (hInv : Inv recP)
    (toks : List String) (e : Expr) (r : List String)
    (h : handleWhq cfg recP toks = .ok (e, r)) : atomsWf e = true := by
  unfold handleWhq at h
  obtain ⟨r1, -, h⟩ := bind_ok h
  obtain ⟨r2, -, h⟩ := bind_ok h
  obtain ⟨⟨types, r3⟩, -, h⟩ := bind_ok h
  obtain ⟨⟨swallowed, r4⟩, -, h⟩ := bind_ok h
  obtain ⟨r5, -, h⟩ := bind_ok h
  obtain ⟨⟨d1, r6⟩, hd1, h⟩ := bind_ok h
  obtain ⟨r7, -, h⟩ := bind_ok h
  obtain ⟨⟨refTok, r8⟩, -, h⟩ := bind_ok h
  obtain ⟨r9, -, h⟩ := bind_ok h
  obtain ⟨⟨d2, r10⟩, hd2, h⟩ := bind_ok h
  obtain ⟨r11, -, h⟩ := bind_ok h
  simp only [Except.ok.injEq, Prod.mk.injEq] at h
  rw [← h.1]
  simp only [atomsWf, Bool.and_eq_true]
  refine ⟨?_, hInv r5 d1 r6 hd1, hInv r9 d2 r10 hd2⟩
  refine atomsWfList_map_of types _ fun fName => ?_
  exact atomsWf_mkAtom _ _ (by simp [isVarE]) (by simp)
    (by simpa using encodedArity_makePred_one cfg "n" fName [])

theorem handleCondition_wf (cfg : Cfg) (recP : RecP) (hInv : Inv recP)
    (tok : String) (indices : List (Int × Int)) (toks : List String)
    (cs : List Expr) (r : List String)
    (h : handleCondition cfg recP tok indices toks = .ok (some (cs, r))) :
    atomsWfList cs = true := by
  unfold handleCondition at h
  by_cases h1 : tok = "not"
  · rw [if_pos h1] at h
    obtain ⟨⟨e0, r0⟩, hh, hf⟩ := map_ok h
    simp only [Option.some_inj, Prod.mk.injEq] at hf
    rw [← hf.1, atomsWfList_singleton]
    exact handleNot_wf recP hInv toks e0 r0 hh
  · rw [if_neg h1] at h
    by_cases h2 : tok = "or"
    · rw [if_pos h2] at h
      obtain ⟨⟨e0, r0⟩, hh, hf⟩ := map_ok h
      simp only [Option.some_inj, Prod.mk.injEq] at hf
      rw [← hf.1, atomsWfList_singleton]
      exact makeBinaryExpression_wf recP hInv _ (fun x y => by simp [atomsWf])
        toks e0 r0 hh
    · rw [if_neg h2] at h
      by_cases h3 : tok = "imp"
      · rw [if_pos h3] at h
        obtain ⟨⟨e0, r0⟩, hh, hf⟩ := map_ok h
        simp only [Option.some_inj, Prod.mk.injEq] at hf
        rw [← hf.1, atomsWfList_singleton]
        exact makeBinaryExpression_wf recP hInv _ (fun x y => by simp [atomsWf])
          toks e0 r0 hh
      · rw [if_neg h3] at h
        by_cases h4 : tok = "eq"
        · rw [if_pos h4] at h
          obtain ⟨⟨e0, r0⟩, hh, hf⟩ := map_ok h
          simp only [Option.some_inj, Prod.mk.injEq] at hf
          rw [← hf.1, atomsWfList_singleton]
          exact handleEq_wf toks e0 r0 hh
        · rw [if_neg h4] at h
          by_cases h5 : tok = "prop"
          · rw [if_pos h5] at h
            obtain ⟨⟨e0, r0⟩, hh, hf⟩ := map_ok h
            simp only [Option.some_inj, Prod.mk.injEq] at hf
            rw [← hf.1, atomsWfList_singleton]
            exact handleProp_wf recP hInv toks e0 r0 hh
          · rw [if_neg h5] at h
            by_cases h6 : tok = "pred"
            · rw [if_pos h6] at h
              obtain ⟨⟨e0, r0⟩, hh, hf⟩ := map_ok h
              simp only [Option.some_inj, Prod.mk.injEq] at hf
              rw [← hf.1, atomsWfList_singleton]
              exact handlePred_wf cfg indices toks e0 r0 hh
            · rw [if_neg h6] at h
              by_cases h7 : tok = "named"
              · rw [if_pos h7] at h
                obtain ⟨⟨e0, r0⟩, hh, hf⟩ := map_ok h
                simp only [Option.some_inj, Prod.mk.injEq] at hf
                rw [← hf.1, atomsWfList_singleton]
                exact handleNamed_wf toks e0 r0 hh
              · rw [if_neg h7] at h
                by_cases h8 : tok = "rel"
                · rw [if_pos h8] at h
                  obtain ⟨⟨e0, r0⟩, hh, hf⟩ := map_ok h
                  simp only [Option.some_inj, Prod.mk.injEq] at hf
                  rw [← hf.1, atomsWfList_singleton]
                  exact handleRel_wf toks e0 r0 hh
                · rw [if_neg h8] at h
                  by_cases h9 : tok = "timex"
                  · rw [if_pos h9] at h
                    obtain ⟨⟨oc0, r0⟩, hh, hf⟩ := map_ok h
                    cases oc0 with
                    | none => simp at hf
                    | some cs0 =>
                      simp only [Option.map_some', Option.some_inj,
                        Prod.mk.injEq] at hf
                      rw [← hf.1]
                      exact handleTimex_wf toks _ r0 hh cs0 rfl
                  · rw [if_neg h9] at h
                    by_cases h10 : tok = "card"
                    · rw [if_pos h10] at h
                      obtain ⟨⟨e0, r0⟩, hh, hf⟩ := map_ok h
                      simp only [Option.some_inj, Prod.mk.injEq] at hf
                      rw [← hf.1, atomsWfList_singleton]
                      exact handleCard_wf toks e0 r0 hh
                    · rw [if_neg h10] at h
                      by_cases h11 : tok = "whq"
                      · rw [if_pos h11] at h
                        obtain ⟨⟨e0, r0⟩, hh, hf⟩ := map_ok h
                        simp only [Option.some_inj, Prod.mk.injEq] at hf
                        rw [← hf.1, atomsWfList_singleton]
                        exact handleWhq_wf cfg recP hInv toks e0 r0 hh
                      · rw [if_neg h11] at h
                        simp at h

theorem parseCondition_wf (cfg : Cfg) (recP : RecP) (hInv : Inv recP)
    (indices : List (Int × Int)) (toks : List String) (cs : List Expr)
    (r : List String) (h : parseCondition cfg recP indices toks = .ok (cs, r)) :
    atomsWfList cs = true := by
  unfold parseCondition at h
  obtain ⟨⟨tok, r1⟩, -, h⟩ := bind_ok h
  obtain ⟨oc, hoc, h⟩ := bind_ok h
  cases oc with
  | none => simp at h
  | some res =>
    simp only [Except.ok.injEq] at h
    rw [h] at hoc
    exact handleCondition_wf cfg recP hInv tok indices r1 cs r hoc

theorem drsCondsLoop_wf (cfg : Cfg) (recP : RecP) (hInv : Inv recP) :
    ∀ fuel toks cs r, drsCondsLoop cfg recP fuel toks = .ok (cs, r) →
      atomsWfList cs = true := by
  intro fuel
  induction fuel with
  | zero => intro toks cs r h; simp [drsCondsLoop] at h
  | succ fuel ih =>
    intro toks cs r h
    rw [drsCondsLoop] at h
    obtain ⟨pk, -, h⟩ := bind_ok h
    by_cases hpk : pk = "]"
    · rw [if_pos hpk] at h
      simp only [Except.ok.injEq, Prod.mk.injEq] at h
      rw [← h.1]
      rfl
    · rw [if_neg hpk] at h
      obtain ⟨⟨indices, r1⟩, -, h⟩ := bind_ok h
      obtain ⟨⟨cs1, r2⟩, hc1, h⟩ := bind_ok h
      obtain ⟨pk2, -, h⟩ := bind_ok h
      obtain ⟨⟨rest, r3⟩, hrest, h⟩ := bind_ok h
      simp only [Except.ok.injEq, Prod.mk.injEq] at h
      rw [← h.1, atomsWfList_append]
      simp [parseCondition_wf cfg recP hInv indices r1 cs1 r2 hc1,
        ih _ rest r3 hrest]

theorem parseDrs_wf (cfg : Cfg) (recP : RecP) (hInv : Inv recP) (fuel : Nat)
    (toks : List String) (e : Expr) (r : List String)
    (h : parseDrs cfg recP fuel toks = .ok (e, r)) : atomsWf e = true := by
  unfold parseDrs at h
  obtain ⟨r1, -, h⟩ := bind_ok h
  obtain ⟨r2, -, h⟩ := bind_ok h
  obtain ⟨⟨refs, r3⟩, -, h⟩ := bind_ok h
  obtain ⟨⟨swallowed, r4⟩, -, h⟩ := bind_ok h
  obtain ⟨r5, -, h⟩ := bind_ok h
  obtain ⟨r6, -, h⟩ := bind_ok h
  obtain ⟨⟨conds, r7⟩, hconds, h⟩ := bind_ok h
  obtain ⟨⟨swallowed2, r8⟩, -, h⟩ := bind_ok h
  obtain ⟨r9, -, h⟩ := bind_ok h
  simp only [Except.ok.injEq, Prod.mk.injEq] at h
  rw [← h.1]
  simpa [atomsWf] using drsCondsLoop_wf cfg recP hInv fuel r6 conds r7 hconds

theorem parseExpressionBody_wf (cfg : Cfg) (recP : RecP) (hInv : Inv recP)
    (fuel : Nat) (toks : List String) (e : Expr) (r : List String)
    (h : parseExpressionBody cfg recP fuel toks = .ok (e, r)) :
    atomsWf e = true := by
  unfold parseExpressionBody at h
  obtain ⟨⟨tok, r1⟩, -, h⟩ := bind_ok h
  by_cases h1 : tok = "drs"
  · subst h1
    simp only [if_true, if_pos] at h
    exact parseDrs_wf cfg recP hInv fuel r1 e r h
  · by_cases h2 : tok = "merge"
    · subst h2
      simp only [if_neg h1, if_true, if_pos] at h
      exact makeBinaryExpression_wf recP hInv _ (fun x y => by simp [atomsWf])
        r1 e r h
    · by_cases h3 : tok = "smerge"
      · subst h3
        simp only [if_neg h1, if_neg h2, if_true, if_pos] at h
        exact makeBinaryExpression_wf recP hInv _ (fun x y => by simp [atomsWf])
          r1 e r h
      · simp [h1, h2, h3] at h

theorem parseExpression_wf (cfg : Cfg) :
    ∀ fuel toks e r, parseExpression cfg fuel toks = .ok (e, r) →
      atomsWf e = true := by
  intro fuel
  induction fuel with
  | zero => intro toks e r h; simp [parseExpression] at h
  | succ fuel ih =>
    intro toks e r h
    rw [parseExpression] at h
    exact parseExpressionBody_wf cfg (parseExpression cfg fuel)
      (fun toks2 e2 r2 h2 => ih toks2 e2 r2 h2) fuel toks e r h

/-! Claim theorems and their witnesses. -/

/-- C6: for every integer `n` in `[1001, 9999]`, decoding it as
`sentence = n/1000 - 1`, `word = n%1000 - 1` (the floor-division decoding of
`_parse_index_list`) and re-encoding as `1000*(sentence+1)+(word+1)`
recovers `n` exactly. -/
theorem index_decode_encode_roundtrip (n : Int) (h1 : 1001 ≤ n) (h2 : n ≤ 9999) :
    encodeIndex (decodeIndex n).1 (decodeIndex n).2 = n := by
  have h := Int.fdiv_add_fmod n 1000
  simp only [encodeIndex, decodeIndex]
  linarith

/-- Witness for C6 at `n = 4005` (sentence 3, word 4). -/
theorem index_decode_encode_roundtrip_witness :
    (1001 : Int) ≤ 4005 ∧ (4005 : Int) ≤ 9999 ∧
      encodeIndex (decodeIndex 4005).1 (decodeIndex 4005).2 = 4005 :=
  ⟨by decide, by decide, index_decode_encode_roundtrip 4005 (by decide) (by decide)⟩

/-- C9: `_make_Variable` rewrites a name beginning with `_G` to `z` followed
by the rest of the name, leaves every other name unchanged, and two source
tokens denote the same variable expression exactly when their names agree
after this rewrite. -/
theorem make_variable_rewrite (n : String) :
    (strStartsWith n "_G" = true → makeVariable n = "z" ++ String.mk (n.data.drop 2)) ∧
    (strStartsWith n "_G" = false → makeVariable n = n) ∧
    (∀ m : String, Expr.var (makeVariable n) = Expr.var (makeVariable m) ↔
      makeVariable n = makeVariable m) := by
  refine ⟨fun h => ?_, fun h => ?_, fun m => ?_⟩
  · simp [makeVariable, h]
  · simp [makeVariable, h]
  · simp [Expr.var.injEq]

/-- Witness for C9 at the internal name `_Gabc` (rewritten to `zabc`) and
the external name `zx` (left unchanged). -/
theorem make_variable_rewrite_witness :
    makeVariable "_Gabc" = "z" ++ String.mk ("_Gabc".data.drop 2) ∧
      makeVariable "zx" = "zx" :=
  ⟨(make_variable_rewrite "_Gabc").1 (by decide),
   (make_variable_rewrite "zx").2.1 (by decide)⟩

/-- C10: on a raw output whose `id(` line is followed by fewer than 9
lines, the fixed-offset access of `_parse_to_drs_dict` is out of bounds:
demultiplexing fails with `IndexError` (not a result map, and not the
assertion failure modelling `MalformedBatchLayoutError`).  Here `lines[i+4]`
exists and passes the `sem(` check but `lines[i+8]` does not. -/
theorem demux_fixed_offset_out_of_range :
    parseToDrsDict "id('1',1).\n\n\n\nsem(1,x" false true = .error .indexError := rfl

/-- C8: at any condition position, an unrecognized condition keyword makes
`parse_condition` fail with the error naming the offending token (the
specification's `UnexpectedConditionError`), never skipping the condition
or returning a partial result. -/
theorem unrecognized_condition_fails (cfg : Cfg) (recP : RecP)
    (indices : List (Int × Int)) (tok : String) (rest : List String)
    (h : tok ∉ ["not", "or", "imp", "eq", "prop", "pred", "named", "rel",
      "timex", "card", "whq"]) :
    parseCondition cfg recP indices (tok :: rest) =
      .error (.unexpectedCondition tok) := by
  simp only [List.mem_cons, List.mem_singleton, not_or] at h
  obtain ⟨h1, h2, h3, h4, h5, h6, h7, h8, h9, h10, h11⟩ := h
  simp [parseCondition, nextTok, handleCondition, h1, h2, h3, h4, h5, h6, h7,
    h8, h9, h10, h11, Bind.bind, Except.bind]

/-- Witness for C8 at the unknown keyword `banana`. -/
theorem unrecognized_condition_fails_witness :
    parseCondition ⟨false, none⟩ (fun _ => .error .outOfFuel) [] ["banana"] =
      .error (.unexpectedCondition "banana") :=
  unrecognized_condition_fails ⟨false, none⟩ (fun _ => .error .outOfFuel) []
    "banana" [] (by decide)

/-- C3: with occurrence indexing enabled and a non-empty index list,
`_make_pred` builds a name containing the position marker
`s<sentence>_w<word>_` taken from the first decoded index pair, ignoring
all later pairs; with occurrence indexing disabled, or with an empty index
list, no marker segment is inserted (and an empty index list also forces
the part of speech to `r` and drops the discourse-id segment). -/
theorem make_pred_position_marker (cfg : Cfg) (pos name : String)
    (indices : List (Int × Int)) (arity : Nat) :
    (∀ a b rest, indices = (a, b) :: rest → cfg.occurIndex = true →
      makePred cfg pos name indices arity = makePred cfg pos name [(a, b)] arity ∧
      ∃ pre post : String, makePred cfg pos name indices arity =
        pre ++ ("s" ++ toString a ++ "_w" ++ toString b ++ "_") ++ post) ∧
    (cfg.occurIndex = false →
      makePred cfg pos name indices arity =
        (if indices.isEmpty then "r" else pos) ++ "_" ++ name ++ "_" ++
          (if discTruthy cfg.discourseId && !indices.isEmpty
            then cfg.discourseId.getD "" ++ "_" else "") ++ toString arity) ∧
    (makePred cfg pos name [] arity = "r" ++ "_" ++ name ++ "_" ++ toString arity) := by
  refine ⟨?_, ?_, ?_⟩
  · rintro a b rest rfl hocc
    constructor
    · simp [makePred]
    · exact ⟨pos ++ "_" ++ name ++ "_" ++
        (if discTruthy cfg.discourseId && !((a, b) :: rest).isEmpty
          then cfg.discourseId.getD "" ++ "_" else ""),
        toString arity, by simp [makePred, hocc, String.append_assoc]⟩
  · intro hocc
    cases indices with
    | nil => simp [makePred, String.append_assoc]
    | cons p rest => cases p with
      | mk a b => simp [makePred, hocc, String.append_assoc]
  · simp [makePred, String.append_assoc]

/-- Counterexample for C2: a batch whose discourse `1` holds a malformed
term (`badcond` is not a condition keyword) and whose discourse `2` is
well-formed.  `_parse_to_drs_dict` propagates discourse 1's parse failure,
aborting the whole batch instead of yielding a map with `1` absent and `2`
parsed. -/
theorem demux_failure_not_isolated_counterexample :
    parseToDrsDict
      ("id('1',1).\n\n\n\nsem(1,x\n\n\n\ndrs([],[[0]:badcond(x0)])).\n" ++
       "id('2',2).\n\n\n\nsem(2,x\n\n\n\ndrs([[1001]:x0],[[1002]:pred(x0,dog,n,0)])).")
      false true = .error (.parseError (.unexpectedCondition "badcond")) := rfl

/-- C2 as amended: a parse failure in one discourse's term aborts the whole
demultiplexing — whatever sibling discourse lines follow the failing block
(and whatever fuel bound is supplied), the loop stops with that discourse's
parse error and produces no result map, rather than isolating the failure
and parsing the siblings. -/
theorem demux_parse_failure_aborts_batch (tail : List String) (fuel : Nat) :
    demuxLoop false true (badBlockLines ++ tail) (fuel + 1) 0 [] =
      .error (.parseError (.unexpectedCondition "badcond")) := by
  simp only [demuxLoop, badBlockLines, List.cons_append, List.nil_append,
    List.length_cons, List.getElem?_cons_zero, List.getElem?_cons_succ]
  simp only [Nat.zero_lt_succ, if_true, Nat.zero_add, List.getElem?_cons_zero,
    List.getElem?_cons_succ, show (0 : Nat) + 4 = 4 from rfl,
    show (0 : Nat) + 8 = 8 from rfl]
  rfl

/-- C7: every expression the parser produces has well-formed atoms
(`atomsWf`): every application chain is headed by a variable, its arguments
are variable expressions, and the number of arguments equals the arity
digit encoded at the end of the predicate name (`encodedArity n =
some (appArgCount ...)` inside `chainOk`) — for the atoms built by the
`pred`, `named`, `rel`, `card`, `timex` and `whq` productions alike. -/
theorem parser_atom_arity_invariant (cfg : Cfg) (s : String) (e : Expr)
    (h : parse cfg s = .ok e) : atomsWf e = true := by
  unfold parse at h
  obtain ⟨toks, -, h⟩ := bind_ok h
  obtain ⟨⟨e0, r0⟩, hpe, h⟩ := bind_ok h
  cases r0 with
  | nil =>
    simp only [Except.ok.injEq] at h
    rw [← h]
    exact parseExpression_wf cfg (toks.length + 1) toks e0 [] hpe
  | cons t rest => simp at h

/-- Witness for C7 at a term exercising `pred`, `rel`, `card` and `eq`
conditions. -/
theorem parser_atom_arity_invariant_witness :
    atomsWf (.drs ["x0", "x1"]
      [.app (.var "n_dog_1") (.var "x0"),
       .app (.app (.var "r_agent_2") (.var "x0")) (.var "x1"),
       .app (.app (.app (.var "r_card_3") (.var "x1")) (.var "28")) (.var "ge"),
       .eq (.var "x0") (.var "x1")]) = true :=
  parser_atom_arity_invariant ⟨false, none⟩
    "drs([[1001]:x0,[1002]:x1],[[1003]:pred(x0,dog,n,0),[1004]:rel(x0,x1,agent,0),[1005]:card(x1,28,ge),[1006]:eq(x0,x1)])"
    (.drs ["x0", "x1"]
      [.app (.var "n_dog_1") (.var "x0"),
       .app (.app (.var "r_agent_2") (.var "x0")) (.var "x1"),
       .app (.app (.app (.var "r_card_3") (.var "x1")) (.var "28")) (.var "ge"),
       .eq (.var "x0") (.var "x1")]) rfl

/-- C5: when the demultiplexer succeeds, the materialized batch result
(`[drs_dict.get(id, None) for id in discourse_ids]`) has exactly one slot
per requested discourse, in request order (slot `i` is the lookup of
`reqIds[i]`), and any requested discourse whose identifier never appears on
an `id(` line of the external output gets the slot `none` (absent) rather
than being omitted. -/
theorem batch_slots_per_discourse (raw : String) (occ ud : Bool)
    (d : DrsDict) (reqIds : List String)
    (h : parseToDrsDict raw occ ud = .ok d) :
    (batchSlots d reqIds).length = reqIds.length ∧
    (∀ i (hi : i < reqIds.length),
      (batchSlots d reqIds)[i]? = some (dictGet d reqIds[i])) ∧
    (∀ i (hi : i < reqIds.length), reqIds[i] ∉ extractedIds (splitLines raw) →
      (batchSlots d reqIds)[i]? = some none) := by
  have hslot : ∀ i (hi : i < reqIds.length),
      (batchSlots d reqIds)[i]? = some (dictGet d reqIds[i]) := by
    intro i hi
    unfold batchSlots
    rw [List.getElem?_map, List.getElem?_eq_getElem hi]
    rfl
  refine ⟨by simp [batchSlots], hslot, fun i hi hmem => ?_⟩
  have hget : dictGet d reqIds[i] = none := by
    by_contra hne
    have hsome : (dictGet d reqIds[i]).isSome = true := by
      cases hg : dictGet d reqIds[i] with
      | none => exact absurd hg hne
      | some e2 => rfl
    rcases demuxLoop_keys occ ud (splitLines raw) (splitLines raw).length.succ
        0 [] d reqIds[i] h hsome with hacc | hm
    · simp [dictGet] at hacc
    · exact hmem hm
  rw [hslot i hi, hget]

/-- Witness for C5: a batch with one well-formed discourse `2`, requested
ids `["1", "2"]`; the requested discourse `1` never appears in the output
and its slot is `none` (absent), not omitted. -/
theorem batch_slots_per_discourse_witness :
    (batchSlots [("2", .drs ["x0"] [.app (.var "n_dog_2_1") (.var "x0")])]
      ["1", "2"])[0]? = some none :=
  (batch_slots_per_discourse
    "id('2',2).\n\n\n\nsem(2,x\n\n\n\ndrs([[1001]:x0],[[1002]:pred(x0,dog,n,0)]))."
    false true [("2", .drs ["x0"] [.app (.var "n_dog_2_1") (.var "x0")])]
    ["1", "2"] rfl).2.2 0 (by decide) (by decide)

/-- Counterexample for C1: the whq term `whq([des:loc],drs([],[]),x0,drs([],[]))`
has the single answer type `loc`, but the answer-type atom is built through
`_make_pred` with an *empty* index list, which forces the part of speech to
`r`: the produced predicate is `r_loc_1`, not `n_loc_1` as the claim
states, and no `n_loc_1` atom occurs in the result. -/
theorem whq_answer_type_pred_counterexample :
    parse ⟨false, none⟩ "drs([],[[0]:whq([des:loc],drs([],[]),x0,drs([],[]))])" =
      .ok (.drs [] [.concat (.drs [] [.app (.var "r_loc_1") (.var "x0")])
        (.concat (.drs [] []) (.drs [] []))]) ∧
    hasAtomPred (fun n => n == "n_loc_1")
      (.drs [] [.concat (.drs [] [.app (.var "r_loc_1") (.var "x0")])
        (.concat (.drs [] []) (.drs [] []))]) = false ∧
    "r_loc_1" ≠ "n_loc_1" :=
  ⟨rfl, by decide, by decide⟩

/-- C1 as amended: every successfully parsed whq term yields
`Concatenation(typeDrs, Concatenation(restriction, body))` where `typeDrs`
is a fresh DRS with an empty referent list holding, for each derived
answer-type name, a unary atom applied to the designated answer variable —
with predicate name `r_<type>_1` (not `n_<type>_1`: the `_make_pred` call
receives an empty index list, which forces the part of speech to `r`). -/
theorem whq_answer_type_shape (cfg : Cfg) (recP : RecP) (toks : List String)
    (e : Expr) (r : List String) (h : handleWhq cfg recP toks = .ok (e, r)) :
    ∃ (types : List String) (d1 : Expr) (refName : String) (d2 : Expr),
      e = .concat
        (.drs [] (types.map fun t =>
          .app (.var ("r" ++ "_" ++ t ++ "_" ++ toString (1 : Nat)))
            (.var (makeVariable refName))))
        (.concat d1 d2) := by
  unfold handleWhq at h
  obtain ⟨r1, -, h⟩ := bind_ok h
  obtain ⟨r2, -, h⟩ := bind_ok h
  obtain ⟨⟨types, r3⟩, -, h⟩ := bind_ok h
  obtain ⟨⟨swallowed, r4⟩, -, h⟩ := bind_ok h
  obtain ⟨r5, -, h⟩ := bind_ok h
  obtain ⟨⟨d1, r6⟩, -, h⟩ := bind_ok h
  obtain ⟨r7, -, h⟩ := bind_ok h
  obtain ⟨⟨refTok, r8⟩, -, h⟩ := bind_ok h
  obtain ⟨r9, -, h⟩ := bind_ok h
  obtain ⟨⟨d2, r10⟩, -, h⟩ := bind_ok h
  obtain ⟨r11, -, h⟩ := bind_ok h
  simp only [Except.ok.injEq, Prod.mk.injEq] at h
  refine ⟨types, d1, refTok, d2, ?_⟩
  rw [← h.1]
  simp [mkAtom, makePred_nil, makeVariable_whq_pred]

/-- Witness for C1's amended theorem at the token stream of
`whq([des:loc],drs([],[]),x0,drs([],[]))`, with the real expression parser
as the recursive entry point. -/
theorem whq_answer_type_shape_witness :
    ∃ (types : List String) (d1 : Expr) (refName : String) (d2 : Expr),
      Expr.concat (.drs [] [.app (.var "r_loc_1") (.var "x0")])
        (.concat (.drs [] []) (.drs [] [])) =
      .concat
        (.drs [] (types.map fun t =>
          .app (.var ("r" ++ "_" ++ t ++ "_" ++ toString (1 : Nat)))
            (.var (makeVariable refName))))
        (.concat d1 d2) :=
  whq_answer_type_shape ⟨false, none⟩ (parseExpression ⟨false, none⟩ 8)
    ["(", "[", "des", ":", "loc", "]", ",", "drs", "(", "[", "]", ",", "[",
     "]", ")", ",", "x0", ",", "drs", "(", "[", "]", ",", "[", "]", ")", ")"]
    (.concat (.drs [] [.app (.var "r_loc_1") (.var "x0")])
      (.concat (.drs [] []) (.drs [] []))) [] rfl

/-- Counterexample for C4: `_nn` tests the chain head for *equality* with
`r_nn_2`, so a binary atom whose predicate merely *ends in* `r_nn_2` — here
`r_xr_nn_2`, which the parser really produces for `rel(x0,x1,xr_nn,0)` —
passes through unchanged, and the Simplifier's output does contain an atom
with predicate ending in `r_nn_2`. -/
theorem nn_suffix_counterexample :
    parse ⟨false, none⟩ "drs([],[[0]:rel(x0,x1,xr_nn,0)])" =
      .ok (.drs [] [.app (.app (.var "r_xr_nn_2") (.var "x0")) (.var "x1")]) ∧
    nn (simplifyLib (.drs [] [.app (.app (.var "r_xr_nn_2") (.var "x0")) (.var "x1")])) =
      .ok (.drs [] [.app (.app (.var "r_xr_nn_2") (.var "x0")) (.var "x1")]) ∧
    hasAtomPred (fun n => strEndsWith n "r_nn_2")
      (.drs [] [.app (.app (.var "r_xr_nn_2") (.var "x0")) (.var "x1")]) = true :=
  ⟨rfl, rfl, by decide⟩

/-- C4 as amended: any binary atom whose predicate name is *exactly*
`r_nn_2` is replaced by an equality over its two verbatim arguments at the
same position, and on every tree whose atoms are well-formed in the
parser's sense (`atomsWf`: variable heads, variable arguments, argument
count matching the encoded arity digit — in particular every `r_nn_2` atom
is binary), `_nn` succeeds and its output contains no atom with predicate
name `r_nn_2`. -/
theorem nn_rnn2_folding :
    (∀ x y : Expr, nn (.app (.app (.var "r_nn_2") x) y) = .ok (.eq x y)) ∧
    (∀ e : Expr, atomsWf e = true →
      ∃ e2, nn e = .ok e2 ∧ hasAtomPred (fun n => n == "r_nn_2") e2 = false) := by
  refine ⟨fun x y => ?_, nn_clean⟩
  simp [nn, appHead, appArgs, headVariableName]

/-- Witness for C4 at a DRS with one `r_nn_2` condition. -/
theorem nn_rnn2_folding_witness :
    ∃ e2, nn (.drs ["x1"] [.app (.app (.var "r_nn_2") (.var "a")) (.var "b")]) =
        .ok e2 ∧
      hasAtomPred (fun n => n == "r_nn_2") e2 = false :=
  nn_rnn2_folding.2 (.drs ["x1"] [.app (.app (.var "r_nn_2") (.var "a")) (.var "b")])
    (by decide)

/-- Witness for C3: the docstring example `v_see_t_s3_w4_2` — discourse
`t`, occurrence indexing on, first decoded pair `(3, 4)`, a second pair
present and ignored. -/
theorem make_pred_position_marker_witness :
    makePred ⟨true, some "t"⟩ "v" "see" [(3, 4), (9, 9)] 2 =
        makePred ⟨true, some "t"⟩ "v" "see" [(3, 4)] 2 ∧
      ∃ pre post : String, makePred ⟨true, some "t"⟩ "v" "see" [(3, 4), (9, 9)] 2 =
        pre ++ ("s" ++ toString (3 : Int) ++ "_w" ++ toString (4 : Int) ++ "_") ++ post :=
  (make_pred_position_marker ⟨true, some "t"⟩ "v" "see" [(3, 4), (9, 9)] 2).1
    3 4 [(9, 9)] rfl rfl

end Boxer
